import Mathlib

/-!
Verification of the rustydb time-series storage engine against its
specification.  The development shallowly embeds the two cores of the
program: the bit-packed Gorilla-style codec (bit stream, scalar codec,
multivariate codec) and the LSM storage layer (SSTable files, MemTable,
manifest, store open), and proves or refutes the specified properties.

Machine integers are modelled as `Nat`/`Int` with explicit wrapping where
the source casts; `f64` values are carried as their 64-bit IEEE-754 bit
patterns (a `Nat` below `2 ^ 64`), which is exactly what the codec
manipulates.  Fallible operations return `Except`/`Option`; an `Option`
result of `none` models a Rust panic (`unwrap`/`assert!`).
-/

namespace RustyDB

/-- Error enum of `src/gorilla/error.rs`. -/
inductive GError where
  | bitStreamIOError
  | bitReaderError
  | appendOrderError
  | appendDurationError
  | badDimensionError
deriving Repr, DecidableEq

/-- A bit stream is a list of bits in the order they are written and read
(bitstream-io little-endian order: within each byte, least significant
bit first; `write(n, v)` emits the low `n` bits of `v` least significant
first, as the repository's own bit-level tests confirm). -/
abbrev Bits := List Bool

/-- Low `n` bits of `v`, least-significant bit first. -/
def natBits : Nat → Nat → Bits
  | 0, _ => []
  | n + 1, v => (v % 2 == 1) :: natBits n (v / 2)

/-- Reassemble a bit list (least-significant first) into a number. -/
def bitsToNat : Bits → Nat
  | [] => 0
  | b :: bs => (if b then 1 else 0) + 2 * bitsToNat bs

theorem natBits_length (n v : Nat) : (natBits n v).length = n := by
  induction n generalizing v with
  | zero => rfl
  | succ n ih => simp [natBits, ih]

theorem bitsToNat_natBits (n v : Nat) : bitsToNat (natBits n v) = v % 2 ^ n := by
  induction n generalizing v with
  | zero => simp [natBits, bitsToNat, Nat.mod_one]
  | succ n ih =>
    have hsplit : v % 2 ^ (n + 1) = v % 2 + 2 * (v / 2 % 2 ^ n) := by
      rw [pow_succ, mul_comm (2 ^ n) 2, Nat.mod_mul]
    simp only [natBits, bitsToNat, ih, hsplit]
    rcases Nat.mod_two_eq_zero_or_one v with h | h <;> simp [h]

theorem bitsToNat_append (l₁ l₂ : Bits) :
    bitsToNat (l₁ ++ l₂) = bitsToNat l₁ + 2 ^ l₁.length * bitsToNat l₂ := by
  induction l₁ with
  | nil => simp [bitsToNat]
  | cons b l ih =>
    simp only [List.cons_append, bitsToNat, List.append_eq, ih, List.length_cons, pow_succ]
    ring

theorem natBits_lt (n v : Nat) : bitsToNat (natBits n v) < 2 ^ n := by
  rw [bitsToNat_natBits]; exact Nat.mod_lt _ (Nat.pos_pow_of_pos _ (by norm_num))

theorem natBits_of_lt {n v : Nat} (h : v < 2 ^ n) :
    bitsToNat (natBits n v) = v := by
  rw [bitsToNat_natBits, Nat.mod_eq_of_lt h]

/-! ### Bit stream container, writer and reader (`src/gorilla/bitstream.rs`) -/

/-- The `BitStream` struct: recorded bit length `n` and the byte buffer,
kept here as the padded bit list. -/
structure BitStream where
  n : Nat
  bitstream : Bits
deriving Repr, DecidableEq

/-- The `BitWriter` struct: bit count `n` plus the accumulated bits. -/
structure BitWriter where
  n : Nat
  bits : Bits
deriving Repr, DecidableEq

def BitWriter.new : BitWriter := ⟨0, []⟩

/-- Model of `BitWriter::write_bit`. -/
def BitWriter.writeBit (w : BitWriter) (bit : Bool) : BitWriter :=
  { n := w.n + 1, bits := w.bits ++ [bit] }

/-- The mask computed in `BitWriter::write`: `(1 << nbits) - 1` when
`nbits < 64`, otherwise `u64::MAX`. -/
def u64mask (nbits : Nat) : Nat := if nbits < 64 then 2 ^ nbits - 1 else 2 ^ 64 - 1

/-- Model of `BitWriter::write`: append the low `nbits` bits of
`val & mask`, least significant first. -/
def BitWriter.write (w : BitWriter) (nbits : Nat) (val : Nat) : BitWriter :=
  { n := w.n + nbits, bits := w.bits ++ natBits nbits (val &&& u64mask nbits) }

def BitWriter.length (w : BitWriter) : Nat := w.n

/-- The zero fill bits appended by `BitWriter::close`. -/
def fillBits (n : Nat) : Nat := if n % 8 == 0 then 0 else (1 + n / 8) * 8 - n

/-- Model of `BitWriter::close`: pad with zero bits to the next byte
boundary and record the bit length. -/
def BitWriter.close (w : BitWriter) : BitStream :=
  { n := w.n, bitstream := w.bits ++ natBits (fillBits w.n) 0 }

/-- The `BitReader` struct: recorded length `n`, logical cursor `c`, and
the underlying buffer. -/
structure BitReader where
  n : Nat
  c : Nat
  bits : Bits
deriving Repr, DecidableEq

def BitReader.new (stream : BitStream) : BitReader :=
  ⟨stream.n, 0, stream.bitstream⟩

def BitReader.length (r : BitReader) : Nat := r.n

def BitReader.cursor (r : BitReader) : Nat := r.c

/-- Model of `BitReader::read_bit`.  The source guard is `c <= n` (not
`c < n`); when it passes, the underlying byte-buffer read yields the bit
at the cursor, or an I/O error when the buffer is exhausted. -/
def BitReader.readBit (r : BitReader) : Except GError (Bool × BitReader) :=
  if r.c ≤ r.n then
    match r.bits[r.c]? with
    | some x => .ok (x, { r with c := r.c + 1 })
    | none => .error .bitStreamIOError
  else
    .error (.bitReaderError)

/-- Model of `BitReader::read`: guard `c + n <= self.n`, then read `n`
bits from the buffer (I/O error if the buffer is too short). -/
def BitReader.read (r : BitReader) (n : Nat) : Except GError (Nat × BitReader) :=
  if r.c + n ≤ r.n then
    if r.c + n ≤ r.bits.length then
      .ok (bitsToNat ((r.bits.drop r.c).take n), { r with c := r.c + n })
    else
      .error .bitStreamIOError
  else
    .error (.bitReaderError)

/-! Generic stepping lemmas for the reader. -/

theorem BitReader.readBit_ok {r : BitReader} {b : Bool} {rest : Bits}
    (hdrop : r.bits.drop r.c = b :: rest) (hn : r.c < r.n) :
    r.readBit = .ok (b, { r with c := r.c + 1 }) := by
  have hget : r.bits[r.c]? = some b := by
    have := List.getElem?_drop r.bits r.c 0
    rw [hdrop] at this
    simpa using this.symm
  simp [readBit, Nat.le_of_lt hn, hget]

theorem BitReader.read_ok {r : BitReader} {k : Nat} {pre rest : Bits}
    (hdrop : r.bits.drop r.c = pre ++ rest) (hpre : pre.length = k)
    (hc : r.c ≤ r.bits.length) (hn : r.c + k ≤ r.n) :
    r.read k = .ok (bitsToNat pre, { r with c := r.c + k }) := by
  have hlen : r.c + k ≤ r.bits.length := by
    have h1 : (r.bits.drop r.c).length = r.bits.length - r.c := by simp
    rw [hdrop] at h1
    simp only [List.length_append, hpre] at h1
    omega
  have htake : (r.bits.drop r.c).take k = pre := by
    subst hpre
    rw [hdrop, List.take_left]
  simp [read, hn, hlen, htake]

theorem drop_cursor_succ (bits : Bits) (c : Nat) (b : Bool) (rest : Bits)
    (h : bits.drop c = b :: rest) : bits.drop (c + 1) = rest := by
  rw [← List.drop_drop, h]
  rfl

theorem drop_cursor_add (bits : Bits) (c : Nat) (pre rest : Bits)
    (h : bits.drop c = pre ++ rest) : bits.drop (c + pre.length) = rest := by
  rw [← List.drop_drop, h, List.drop_left]

/-! ### Claim C2: bit-stream write/read round trip -/

/-- C2: for every `0 ≤ n ≤ 64` and every 64-bit value `v`, writing
`v` with `write(n, v)` and reading `n` bits from the closed stream yields
`v & ((1 << n) - 1)`; the writer masks `v` to its low `n` bits before
appending. -/
theorem C2_bitstream_write_read (n v : Nat) (hn : n ≤ 64) (hv : v < 2 ^ 64) :
    ((BitReader.new (BitWriter.new.write n v).close).read n).map Prod.fst
        = .ok (v &&& (2 ^ n - 1)) ∧
      (BitWriter.new.write n v).bits = natBits n (v &&& (2 ^ n - 1)) := by
  have hmask : v &&& u64mask n = v % 2 ^ n := by
    by_cases h64 : n < 64
    · simp [u64mask, h64, Nat.and_pow_two_sub_one_eq_mod]
    · have hn64 : n = 64 := by omega
      subst hn64
      simpa [u64mask] using Nat.and_pow_two_sub_one_eq_mod v 64
  have hmask2 : v &&& (2 ^ n - 1) = v % 2 ^ n := Nat.and_pow_two_sub_one_eq_mod v n
  have hval : natBits n (v &&& u64mask n) = natBits n (v &&& (2 ^ n - 1)) := by
    rw [hmask, hmask2]
  constructor
  · have hdrop : ((BitReader.new (BitWriter.new.write n v).close).bits).drop 0
        = natBits n (v &&& u64mask n) ++ natBits (fillBits n) 0 := by
      simp [BitReader.new, BitWriter.close, BitWriter.write, BitWriter.new]
    have hread := BitReader.read_ok (r := BitReader.new (BitWriter.new.write n v).close)
      (k := n) hdrop (natBits_length _ _) (by simp [BitReader.new])
      (by simp [BitReader.new, BitWriter.close, BitWriter.write, BitWriter.new])
    rw [hread]
    simp only [Except.map]
    rw [bitsToNat_natBits, hmask, hmask2, Nat.mod_mod_of_dvd _ dvd_rfl]
  · simp [BitWriter.write, BitWriter.new, hval]

/-- C2 witness at `n = 6`, `v = 0b101011`. -/
theorem C2_bitstream_write_read_witness :
    ((BitReader.new (BitWriter.new.write 6 43).close).read 6).map Prod.fst
        = .ok (43 &&& (2 ^ 6 - 1)) ∧
      (BitWriter.new.write 6 43).bits = natBits 6 (43 &&& (2 ^ 6 - 1)) :=
  C2_bitstream_write_read 6 43 (by norm_num) (by norm_num)

/-! ### Claim C3: reading past the recorded bit length -/

/-- A one-bit stream: `write_bit(true)` then `close()` gives recorded
length 1 with seven zero padding bits. -/
def oneBitStream : BitStream := (BitWriter.new.writeBit true).close

/-- C3 is false of the code: `read_bit`'s guard is `c <= n` instead of
`c < n`, so after exactly `bit_length` bits have been consumed one more
`read_bit` succeeds and returns a padding bit as data.  Concretely, on a
stream of recorded length 1, the first `read_bit` consumes the single
data bit, and the second `read_bit` returns `Ok(false)` — a padding
bit — rather than an error, while `read(1)` at the same position does
correctly fail.  (The companion guard in `read` is `c + n <= bit_length`,
which is consistent with `c < n` for one bit; the two are contradictory.) -/
theorem C3_readBit_past_end_returns_padding :
    (((BitReader.new oneBitStream).readBit).bind (fun p => p.2.readBit)).map Prod.fst
        = .ok false ∧
      (((BitReader.new oneBitStream).readBit).bind (fun p => p.2.read 1)).map Prod.fst
        = .error .bitReaderError := by
  constructor <;> rfl

/-! ### Integer casts used by the codec -/

/-- Interpretation of a 64-bit pattern as an `i64` (`as i64`). -/
def toI64 (n : Nat) : Int := if n < 2 ^ 63 then (n : Int) else (n : Int) - 2 ^ 64

/-- Cast of a signed value to a `u64` bit pattern (`as u64`). -/
def toU64 (i : Int) : Nat := (i % (2 ^ 64 : Int)).toNat

/-- Cast of a `u32` value to `i32` (`as i32`). -/
def u32AsI32 (n : Nat) : Int :=
  if n % 2 ^ 32 < 2 ^ 31 then ((n % 2 ^ 32 : Nat) : Int)
  else ((n % 2 ^ 32 : Nat) : Int) - 2 ^ 32

/-- Wrapping of an integer into the `i32` range, as Rust release-mode
`i32` subtraction wraps. -/
def i32wrap (i : Int) : Int := (i + 2 ^ 31) % 2 ^ 32 - 2 ^ 31

theorem i32wrap_eq_self {i : Int} (h1 : -(2 ^ 31) ≤ i) (h2 : i < 2 ^ 31) :
    i32wrap i = i := by
  unfold i32wrap
  omega

theorem u32AsI32_eq_self {n : Nat} (h : n < 2 ^ 31) : u32AsI32 n = (n : Int) := by
  unfold u32AsI32
  split <;> omega

/-! ### Leading and trailing zero counts of 64-bit patterns -/

def lzAux : Nat → Nat → Nat
  | 0, _ => 0
  | fuel + 1, x => if x = 0 then 0 else lzAux fuel (x / 2) + 1

/-- Bit length of `x` (position of the highest set bit plus one). -/
def bitLen (x : Nat) : Nat := lzAux 64 x

/-- Model of `u64::leading_zeros` for patterns below `2 ^ 64`. -/
def lz64 (x : Nat) : Nat := 64 - bitLen x

theorem lzAux_le (fuel x : Nat) : lzAux fuel x ≤ fuel := by
  induction fuel generalizing x with
  | zero => simp [lzAux]
  | succ fuel ih =>
    unfold lzAux
    split
    · omega
    · have := ih (x / 2)
      omega

theorem lzAux_gt (fuel x : Nat) (h : x < 2 ^ fuel) : x < 2 ^ lzAux fuel x := by
  induction fuel generalizing x with
  | zero => simpa [lzAux] using h
  | succ fuel ih =>
    unfold lzAux
    split
    · simpa using by omega
    · have hlt : x / 2 < 2 ^ fuel := by
        rw [pow_succ] at h
        omega
      have := ih (x / 2) hlt
      rw [pow_succ]
      omega

def tzAux : Nat → Nat → Nat
  | 0, _ => 0
  | fuel + 1, x => if x % 2 = 1 then 0 else tzAux fuel (x / 2) + 1

/-- Model of `u64::trailing_zeros` for patterns below `2 ^ 64`. -/
def tz64 (x : Nat) : Nat := if x = 0 then 64 else tzAux 64 x

theorem bitLen_pos {x : Nat} (hx : x ≠ 0) : 1 ≤ bitLen x := by
  unfold bitLen lzAux
  simp [hx]

theorem bitLen_le (x : Nat) : bitLen x ≤ 64 := lzAux_le 64 x

theorem lz64_le_63 {x : Nat} (hx : x ≠ 0) : lz64 x ≤ 63 := by
  have := bitLen_pos hx
  unfold lz64
  omega

theorem lt_two_pow_sub_lz64 {x : Nat} (hx : x ≠ 0) (h64 : x < 2 ^ 64) :
    x < 2 ^ (64 - lz64 x) := by
  have h1 : 64 - lz64 x = bitLen x := by
    have := bitLen_le x
    unfold lz64
    omega
  rw [h1]
  exact lzAux_gt 64 x h64

theorem tzAux_dvd : ∀ (fuel x : Nat), x ≠ 0 → x < 2 ^ fuel → 2 ^ tzAux fuel x ∣ x := by
  intro fuel
  induction fuel with
  | zero => intro x hx h; omega
  | succ fuel ih =>
    intro x hx h
    by_cases hodd : x % 2 = 1
    · simp [tzAux, hodd]
    · have heven : x % 2 = 0 := by omega
      have hhalf : x / 2 ≠ 0 := by omega
      have hlt : x / 2 < 2 ^ fuel := by
        rw [pow_succ] at h; omega
      have hdvd := ih (x / 2) hhalf hlt
      simp only [tzAux, hodd, if_false, pow_succ]
      set t := tzAux fuel (x / 2) with ht
      rcases hdvd with ⟨c, hc⟩
      refine ⟨c, ?_⟩
      calc x = 2 * (x / 2) := by omega
        _ = 2 * (2 ^ t * c) := by rw [hc]
        _ = 2 ^ t * 2 * c := by ring

theorem tz64_dvd {x : Nat} (hx : x ≠ 0) (h64 : x < 2 ^ 64) : 2 ^ tz64 x ∣ x := by
  simp only [tz64, hx, if_false]
  exact tzAux_dvd 64 x hx h64

theorem tz64_lz64_le {x : Nat} (hx : x ≠ 0) (h64 : x < 2 ^ 64) :
    lz64 x + tz64 x ≤ 63 := by
  have hdvd := tz64_dvd hx h64
  have h1 : 2 ^ tz64 x ≤ x := Nat.le_of_dvd (Nat.pos_of_ne_zero hx) hdvd
  have h2 : x < 2 ^ (64 - lz64 x) := lt_two_pow_sub_lz64 hx h64
  have h3 : 2 ^ tz64 x < 2 ^ (64 - lz64 x) := lt_of_le_of_lt h1 h2
  have h4 : tz64 x < 64 - lz64 x := by
    by_contra hcon
    exact absurd h3 (not_lt.mpr (Nat.pow_le_pow_right (by norm_num) (by omega)))
  have h5 := lz64_le_63 hx
  omega

theorem shiftRight_shiftLeft_of_dvd {x t : Nat} (h : 2 ^ t ∣ x) :
    (x >>> t) <<< t = x := by
  rw [Nat.shiftRight_eq_div_pow, Nat.shiftLeft_eq]
  exact Nat.div_mul_cancel h

theorem shiftRight_lt {x t n : Nat} (h : x < 2 ^ (n + t)) : x >>> t < 2 ^ n := by
  rw [Nat.shiftRight_eq_div_pow]
  rw [pow_add, mul_comm] at h
  exact Nat.div_lt_of_lt_mul h

/-! ### Scalar Gorilla writer (`src/gorilla/writer.rs`) -/

/-- The `Zeros` struct of `src/gorilla/mod.rs` (fields are `u8`). -/
structure Zeros where
  leading : Nat
  trailing : Nat
deriving Repr, DecidableEq

/-- The univariate `Entry` of `src/gorilla/mod.rs`: a second-precision
timestamp and an `f64` carried as its 64-bit pattern. -/
structure Entry where
  time : Int
  value : Nat
deriving Repr, DecidableEq

structure GorillaWriter where
  header : Int
  prev_ts : Int
  prev_delta : Nat
  prev_value : Nat
  prev_zeros : Zeros
  body : BitWriter
deriving Repr, DecidableEq

/-- Model of `GorillaWriter::with_vec`: the predictor starts at
`(32, 32)`, `prev_value` is `0.0` (bit pattern 0), and the 64-bit header
timestamp is written. -/
def GorillaWriter.withVec (header : Int) : GorillaWriter :=
  { header := header, prev_ts := header, prev_delta := 0, prev_value := 0,
    prev_zeros := ⟨32, 32⟩,
    body := BitWriter.new.write 64 (toU64 header) }

/-- Model of `GorillaWriter::validate_timestamp`. -/
def GorillaWriter.validateTimestamp (w : GorillaWriter) (time : Int) :
    Except GError Nat :=
  let delta := time - w.prev_ts
  if delta < 0 then .error .appendOrderError
  else if delta > 16384 then .error .appendDurationError
  else .ok delta.toNat

/-- Model of `GorillaWriter::append_time`.  The delta-of-delta is the
`i32` difference `delta as i32 - prev_delta as i32`; payloads are the
value cast with `as u64`. -/
def GorillaWriter.appendTime (w : GorillaWriter) (time : Int) :
    Except GError GorillaWriter :=
  match w.validateTimestamp time with
  | .error e => .error e
  | .ok delta =>
    let dod : Int := i32wrap (u32AsI32 delta - u32AsI32 w.prev_delta)
    let w1 := { w with prev_delta := delta, prev_ts := time }
    if dod = 0 then
      .ok { w1 with body := w1.body.writeBit false }
    else if -63 ≤ dod ∧ dod ≤ 64 then
      let b := ((w1.body.writeBit true).writeBit false).write 7 (toU64 dod)
      .ok { w1 with body := b }
    else if -255 ≤ dod ∧ dod ≤ 256 then
      let b := (((w1.body.writeBit true).writeBit true).writeBit false).write 9 (toU64 dod)
      .ok { w1 with body := b }
    else if -2047 ≤ dod ∧ dod ≤ 2048 then
      let b3 := ((w1.body.writeBit true).writeBit true).writeBit true
      let b := (b3.writeBit false).write 12 (toU64 dod)
      .ok { w1 with body := b }
    else
      let b3 := ((w1.body.writeBit true).writeBit true).writeBit true
      let b := (b3.writeBit true).write 32 (toU64 dod)
      .ok { w1 with body := b }

/-- Model of `GorillaWriter::append_value` on the 64-bit pattern of the
appended `f64`. -/
def GorillaWriter.appendValue (w : GorillaWriter) (value : Nat) :
    Except GError GorillaWriter :=
  let xored := value ^^^ w.prev_value
  let inside := w.prev_zeros.leading ≤ lz64 xored ∧ w.prev_zeros.trailing ≤ tz64 xored
  let leading := if inside then w.prev_zeros.leading else lz64 xored
  let trailing := if inside then w.prev_zeros.trailing else tz64 xored
  let nbits := 64 - leading - trailing
  let toWrite := xored >>> trailing
  if xored = 0 then
    .ok { w with prev_value := value, body := w.body.writeBit false }
  else if inside then
    let b := ((w.body.writeBit true).writeBit false).write nbits toWrite
    .ok { w with prev_value := value, body := b }
  else
    let bhead := ((w.body.writeBit true).writeBit true).write 5 leading
    let b := (bhead.write 6 nbits).write nbits toWrite
    .ok { w with prev_value := value, prev_zeros := ⟨leading, trailing⟩, body := b }

/-- Model of `GorillaWriter::append_first`. -/
def GorillaWriter.appendFirst (w : GorillaWriter) (entry : Entry) :
    Except GError GorillaWriter :=
  match w.validateTimestamp entry.time with
  | .error e => .error e
  | .ok delta =>
    let b := (w.body.write 14 delta).write 64 entry.value
    .ok { w with body := b, prev_value := entry.value, prev_ts := entry.time, prev_delta := delta }

/-- Model of `GorillaWriter::append_entry`. -/
def GorillaWriter.appendEntry (w : GorillaWriter) (entry : Entry) :
    Except GError GorillaWriter :=
  match w.appendTime entry.time with
  | .error e => .error e
  | .ok w1 => w1.appendValue entry.value

/-! ### Scalar Gorilla reader (`src/gorilla/reader.rs`) -/

structure GorillaReader where
  entry : Entry
  prev_entry : Entry
  prev_diff : Int
  prev_zeros : Zeros
  reader : BitReader
deriving Repr, DecidableEq

/-- Result of a Rust `.unwrap()` on a fallible call; `none` models the
panic on `Err`. -/
def unwrapE {α : Type} : Except GError α → Option α
  | .ok a => some a
  | .error _ => none

/-- The `to_dod` closure of `get_next_time`: sign-extend a raw `x` that
exceeds the positive boundary `mx` of its range by OR-ing with
`u64::MAX << shift`. -/
def toDod (x shift mx : Nat) : Int :=
  if mx < x then toI64 ((x ||| (((2 ^ 64 - 1) <<< shift) % 2 ^ 64)) % 2 ^ 64)
  else (x : Int)

/-- Model of `GorillaReader::get_next_time`.  Note that the zero
delta-of-delta branch returns early without touching `prev_entry` or
`prev_diff`. -/
def GorillaReader.getNextTime (r : GorillaReader) : Option (Int × GorillaReader) := do
  let (b1, rd1) ← unwrapE r.reader.readBit
  if !b1 then
    return (r.prev_entry.time + r.prev_diff, { r with reader := rd1 })
  else
    let (b2, rd2) ← unwrapE rd1.readBit
    let (bits, mx, rdp) ←
      if !b2 then
        pure ((7 : Nat), (64 : Nat), rd2)
      else do
        let (b3, rd3) ← unwrapE rd2.readBit
        if !b3 then
          pure ((9 : Nat), (256 : Nat), rd3)
        else do
          let (b4, rd4) ← unwrapE rd3.readBit
          if !b4 then
            pure ((12 : Nat), (2048 : Nat), rd4)
          else
            pure ((32 : Nat), (2 ^ 31 - 1 : Nat), rd4)
    let (x, rd5) ← unwrapE (rdp.read bits)
    let dod := toDod x bits mx
    let diff := dod + r.prev_diff
    let time := r.prev_entry.time + diff
    let pe := { r.prev_entry with time := time }
    return (time, { r with prev_entry := pe, prev_diff := diff, reader := rd5 })

/-- Model of `GorillaReader::get_next_value`. -/
def GorillaReader.getNextValue (r : GorillaReader) : Option (Nat × GorillaReader) := do
  let (b1, rd1) ← unwrapE r.reader.readBit
  if !b1 then
    return (r.prev_entry.value, { r with reader := rd1 })
  else
    let (b2, rd2) ← unwrapE rd1.readBit
    if !b2 then
      let leading := r.prev_zeros.leading
      let trailing := r.prev_zeros.trailing
      let nbits := 64 - leading - trailing
      let (x, rd3) ← unwrapE (rd2.read nbits)
      let xored := (x <<< trailing) % 2 ^ 64
      let val := r.prev_entry.value ^^^ xored
      let pe := { r.prev_entry with value := val }
      return (val, { r with prev_entry := pe, reader := rd3 })
    else
      let (leading, rd3) ← unwrapE (rd2.read 5)
      let (nbits, rd4) ← unwrapE (rd3.read 6)
      let trailing := 64 - leading - nbits
      let (x, rd5) ← unwrapE (rd4.read nbits)
      let xored := (x <<< trailing) % 2 ^ 64
      let val := r.prev_entry.value ^^^ xored
      let pe := { r.prev_entry with value := val }
      return (val, { r with prev_zeros := ⟨leading, trailing⟩, prev_entry := pe, reader := rd5 })

/-! ### Timestamp encode/decode correspondence -/

/-- Bits emitted by `append_time` for a given delta-of-delta (a proved
characterisation of the writer; see `appendTime_ok`). -/
def encTime (dod : Int) : Bits :=
  if dod = 0 then [false]
  else if -63 ≤ dod ∧ dod ≤ 64 then
    true :: false :: natBits 7 (toU64 dod &&& u64mask 7)
  else if -255 ≤ dod ∧ dod ≤ 256 then
    true :: true :: false :: natBits 9 (toU64 dod &&& u64mask 9)
  else if -2047 ≤ dod ∧ dod ≤ 2048 then
    true :: true :: true :: false :: natBits 12 (toU64 dod &&& u64mask 12)
  else
    true :: true :: true :: true :: natBits 32 (toU64 dod &&& u64mask 32)

theorem encTime_ne_nil (dod : Int) : encTime dod ≠ [] := by
  unfold encTime
  split_ifs <;> simp

theorem appendTime_ok (w : GorillaWriter) (t : Int)
    (h0 : 0 ≤ t - w.prev_ts) (h16 : t - w.prev_ts ≤ 16384) (hpd : w.prev_delta ≤ 16384) :
    w.appendTime t = .ok
      { w with
        prev_ts := t
        prev_delta := (t - w.prev_ts).toNat
        body := ⟨w.body.n + (encTime (t - w.prev_ts - (w.prev_delta : Int))).length,
                 w.body.bits ++ encTime (t - w.prev_ts - (w.prev_delta : Int))⟩ } := by
  have hnl : ¬ (t - w.prev_ts < 0) := by omega
  have hng : ¬ (t - w.prev_ts > 16384) := by omega
  have hdodeq : i32wrap (u32AsI32 (t - w.prev_ts).toNat - u32AsI32 w.prev_delta)
      = t - w.prev_ts - (w.prev_delta : Int) := by
    rw [u32AsI32_eq_self (by omega), u32AsI32_eq_self (by omega)]
    rw [i32wrap_eq_self (by omega) (by omega)]
    omega
  unfold GorillaWriter.appendTime GorillaWriter.validateTimestamp
  simp only [hnl, hng, if_false, hdodeq]
  unfold encTime
  split_ifs with hc1 hc2 hc3 hc4 <;>
    simp [BitWriter.writeBit, BitWriter.write, natBits_length, List.append_assoc]

theorem signExtendVal (x k : Nat) (hk1 : 1 ≤ k) (hk : k < 64) (hx : x < 2 ^ k) :
    toI64 ((x ||| (((2 ^ 64 - 1) <<< k) % 2 ^ 64)) % 2 ^ 64) = (x : Int) - 2 ^ k := by
  have hkle : (2 : Nat) ^ k ≤ 2 ^ 64 := Nat.pow_le_pow_right (by norm_num) (by omega)
  have hk63 : (2 : Nat) ^ k ≤ 2 ^ 63 := Nat.pow_le_pow_right (by norm_num) (by omega)
  have hsplit : (2 : Nat) ^ k * 2 ^ (64 - k) = 2 ^ 64 := by
    rw [← pow_add]
    congr 1
    omega
  have hone : (1 : Nat) ≤ 2 ^ (64 - k) := Nat.one_le_two_pow
  have hshift : ((2 ^ 64 - 1) <<< k) % 2 ^ 64 = 2 ^ k * (2 ^ (64 - k) - 1) := by
    rw [Nat.shiftLeft_eq]
    have h1 : ((2 : Nat) ^ 64 - 1) * 2 ^ k = 2 ^ 64 * (2 ^ k - 1) + (2 ^ 64 - 2 ^ k) := by
      have h2 : (1 : Nat) ≤ 2 ^ k := Nat.one_le_two_pow
      zify [hkle, h2, Nat.one_le_two_pow (n := 64)]
      ring
    rw [h1, Nat.mul_add_mod, Nat.mod_eq_of_lt (by omega)]
    rw [Nat.mul_sub_one, hsplit]
  rw [hshift, Nat.lor_comm, ← Nat.mul_add_lt_is_or hx]
  have hval : 2 ^ k * (2 ^ (64 - k) - 1) + x = 2 ^ 64 - 2 ^ k + x := by
    rw [Nat.mul_sub_one, hsplit]
  rw [hval, Nat.mod_eq_of_lt (by omega)]
  unfold toI64
  have hge : ¬ (2 ^ 64 - 2 ^ k + x < 2 ^ 63) := by omega
  rw [if_neg hge]
  have hcast : ((2 ^ 64 - 2 ^ k + x : Nat) : Int) = 2 ^ 64 - (2 ^ k : Nat) + x := by
    rw [Nat.cast_add, Nat.cast_sub hkle]
    norm_num
  rw [hcast]
  push_cast
  ring

theorem toDod_signExtend (x k mx : Nat) (hk1 : 1 ≤ k) (hk : k < 64) (hx : x < 2 ^ k)
    (hmx : mx < x) : toDod x k mx = (x : Int) - 2 ^ k := by
  unfold toDod
  rw [if_pos hmx]
  exact signExtendVal x k hk1 hk hx

theorem toDod_range7 {dod : Int} (h1 : -63 ≤ dod) (h2 : dod ≤ 64) :
    toDod (toU64 dod % 2 ^ 7) 7 64 = dod := by
  rcases le_or_lt 0 dod with hpos | hneg
  · have hx : toU64 dod % 2 ^ 7 = dod.toNat := by unfold toU64; omega
    rw [hx]
    unfold toDod
    rw [if_neg (by omega)]
    omega
  · have hx : toU64 dod % 2 ^ 7 = (dod + 2 ^ 7).toNat := by unfold toU64; omega
    rw [hx, toDod_signExtend _ 7 _ (by norm_num) (by norm_num) (by omega) (by omega)]
    omega

theorem toDod_range9 {dod : Int} (h1 : -255 ≤ dod) (h2 : dod ≤ 256) :
    toDod (toU64 dod % 2 ^ 9) 9 256 = dod := by
  rcases le_or_lt 0 dod with hpos | hneg
  · have hx : toU64 dod % 2 ^ 9 = dod.toNat := by unfold toU64; omega
    rw [hx]
    unfold toDod
    rw [if_neg (by omega)]
    omega
  · have hx : toU64 dod % 2 ^ 9 = (dod + 2 ^ 9).toNat := by unfold toU64; omega
    rw [hx, toDod_signExtend _ 9 _ (by norm_num) (by norm_num) (by omega) (by omega)]
    omega

theorem toDod_range12 {dod : Int} (h1 : -2047 ≤ dod) (h2 : dod ≤ 2048) :
    toDod (toU64 dod % 2 ^ 12) 12 2048 = dod := by
  rcases le_or_lt 0 dod with hpos | hneg
  · have hx : toU64 dod % 2 ^ 12 = dod.toNat := by unfold toU64; omega
    rw [hx]
    unfold toDod
    rw [if_neg (by omega)]
    omega
  · have hx : toU64 dod % 2 ^ 12 = (dod + 2 ^ 12).toNat := by unfold toU64; omega
    rw [hx, toDod_signExtend _ 12 _ (by norm_num) (by norm_num) (by omega) (by omega)]
    omega

theorem toDod_range32 {dod : Int} (h1 : -(2 ^ 31) ≤ dod) (h2 : dod ≤ 2 ^ 31 - 1) :
    toDod (toU64 dod % 2 ^ 32) 32 (2 ^ 31 - 1) = dod := by
  rcases le_or_lt 0 dod with hpos | hneg
  · have hx : toU64 dod % 2 ^ 32 = dod.toNat := by unfold toU64; omega
    rw [hx]
    unfold toDod
    rw [if_neg (by omega)]
    omega
  · have hx : toU64 dod % 2 ^ 32 = (dod + 2 ^ 32).toNat := by unfold toU64; omega
    rw [hx, toDod_signExtend _ 32 _ (by norm_num) (by norm_num) (by omega) (by omega)]
    omega

/-- Reading one bit at an explicit reader state. -/
theorem readBit_at {b : Bool} {rest : Bits} (n c : Nat) (bs : Bits)
    (hdrop : bs.drop c = b :: rest) (hn : c < n) :
    BitReader.readBit ⟨n, c, bs⟩ = .ok (b, ⟨n, c + 1, bs⟩) := by
  have hget : bs[c]? = some b := by
    have := List.getElem?_drop bs c 0
    rw [hdrop] at this
    simpa using this.symm
  simp [BitReader.readBit, Nat.le_of_lt hn, hget]

/-- Reading a fixed-width field at an explicit reader state. -/
theorem read_at {pre rest : Bits} (n c k : Nat) (bs : Bits)
    (hdrop : bs.drop c = pre ++ rest) (hpre : pre.length = k)
    (hc : c ≤ bs.length) (hn : c + k ≤ n) :
    BitReader.read ⟨n, c, bs⟩ k = .ok (bitsToNat pre, ⟨n, c + k, bs⟩) := by
  have h := BitReader.read_ok (r := ⟨n, c, bs⟩) hdrop hpre hc hn
  exact h

/-- Decoding `get_next_time` against the bits `append_time` emitted:
positioned at `encTime dod`, the reader returns
`prev_entry.time + (dod + prev_diff)` and advances past the emitted bits;
the zero branch leaves `prev_entry` and `prev_diff` untouched. -/
theorem getNextTime_spec (r : GorillaReader) (dod : Int) (rest : Bits)
    (hlo : -(2 ^ 31) ≤ dod) (hhi : dod ≤ 2 ^ 31 - 1)
    (hdrop : r.reader.bits.drop r.reader.c = encTime dod ++ rest)
    (hn : r.reader.c + (encTime dod).length ≤ r.reader.n) :
    r.getNextTime = some (r.prev_entry.time + (dod + r.prev_diff),
      if dod = 0 then
        { r with reader := { r.reader with c := r.reader.c + 1 } }
      else
        { r with
          prev_entry := { r.prev_entry with time := r.prev_entry.time + (dod + r.prev_diff) }
          prev_diff := dod + r.prev_diff
          reader := { r.reader with c := r.reader.c + (encTime dod).length } }) := by
  obtain ⟨e₀, pe₀, pdf₀, pz₀, rd₀⟩ := r
  obtain ⟨n₀, c₀, bs₀⟩ := rd₀
  simp only at hdrop hn ⊢
  by_cases hz : dod = 0
  · have hE : encTime dod = [false] := by simp [encTime, hz]
    rw [hE] at hdrop hn
    simp only [List.singleton_append, List.length_singleton] at hdrop hn
    have hr1 := readBit_at n₀ c₀ bs₀ hdrop (by omega)
    unfold GorillaReader.getNextTime
    rw [hr1]
    simp [unwrapE, hz]
  · by_cases h7 : -63 ≤ dod ∧ dod ≤ 64
    ·

      have hE : encTime dod = true :: false :: natBits 7 (toU64 dod &&& u64mask 7) := by
        unfold encTime
        rw [if_neg hz, if_pos h7]
      have hlenE : (encTime dod).length = 9 := by
        rw [hE]; simp [natBits_length]
      rw [hlenE] at hn
      rw [hE] at hdrop
      simp only [List.cons_append] at hdrop
      have hr1 := readBit_at n₀ c₀ bs₀ hdrop (by omega)
      have hdrop1 := drop_cursor_succ _ _ _ _ hdrop
      have hr2 := readBit_at n₀ (c₀ + 1) bs₀ hdrop1 (by omega)
      have hdrop2 := drop_cursor_succ _ _ _ _ hdrop1
      have hclen : c₀ + 1 + 1 ≤ bs₀.length := by
        have h1 := congrArg List.length hdrop2
        simp [natBits_length] at h1
        omega
      have hrp := read_at n₀ (c₀ + 1 + 1) 7 bs₀ hdrop2 (natBits_length _ _) hclen (by omega)
      unfold GorillaReader.getNextTime
      rw [hr1]
      simp only [unwrapE, Option.bind_eq_bind, Option.some_bind, Bool.not_true, Bool.not_false,
      Bool.false_eq_true, Bool.true_eq_false, if_false, if_true, Option.pure_def]
      rw [hr2]
      simp only [unwrapE, Option.bind_eq_bind, Option.some_bind, Bool.not_true, Bool.not_false,
      Bool.false_eq_true, Bool.true_eq_false, if_false, if_true, Option.pure_def]
      rw [hrp]
      simp only [unwrapE, Option.bind_eq_bind, Option.some_bind, Bool.not_true, Bool.not_false,
      Bool.false_eq_true, Bool.true_eq_false, if_false, if_true, Option.pure_def]
      have hx : bitsToNat (natBits 7 (toU64 dod &&& u64mask 7)) = toU64 dod % 2 ^ 7 := by
        rw [bitsToNat_natBits]
        have hm : u64mask 7 = 2 ^ 7 - 1 := by norm_num [u64mask]
        rw [hm, Nat.and_pow_two_sub_one_eq_mod, Nat.mod_mod_of_dvd _ dvd_rfl]
      rw [hx, toDod_range7 h7.1 h7.2, if_neg hz]
      simp only [Option.some.injEq, Prod.mk.injEq, GorillaReader.mk.injEq, BitReader.mk.injEq,
        and_true, true_and]
      omega
    · by_cases h9 : -255 ≤ dod ∧ dod ≤ 256
      ·

        have hE : encTime dod = true :: true :: false :: natBits 9 (toU64 dod &&& u64mask 9) := by
          unfold encTime
          rw [if_neg hz, if_neg h7, if_pos h9]
        have hlenE : (encTime dod).length = 12 := by
          rw [hE]; simp [natBits_length]
        rw [hlenE] at hn
        rw [hE] at hdrop
        simp only [List.cons_append] at hdrop
        have hr1 := readBit_at n₀ c₀ bs₀ hdrop (by omega)
        have hdrop1 := drop_cursor_succ _ _ _ _ hdrop
        have hr2 := readBit_at n₀ (c₀ + 1) bs₀ hdrop1 (by omega)
        have hdrop2 := drop_cursor_succ _ _ _ _ hdrop1
        have hr3 := readBit_at n₀ (c₀ + 1 + 1) bs₀ hdrop2 (by omega)
        have hdrop3 := drop_cursor_succ _ _ _ _ hdrop2
        have hclen : c₀ + 1 + 1 + 1 ≤ bs₀.length := by
          have h1 := congrArg List.length hdrop3
          simp [natBits_length] at h1
          omega
        have hrp := read_at n₀ (c₀ + 1 + 1 + 1) 9 bs₀ hdrop3 (natBits_length _ _) hclen (by omega)
        unfold GorillaReader.getNextTime
        rw [hr1]
        simp only [unwrapE, Option.bind_eq_bind, Option.some_bind, Bool.not_true, Bool.not_false,
      Bool.false_eq_true, Bool.true_eq_false, if_false, if_true, Option.pure_def]
        rw [hr2]
        simp only [unwrapE, Option.bind_eq_bind, Option.some_bind, Bool.not_true, Bool.not_false,
      Bool.false_eq_true, Bool.true_eq_false, if_false, if_true, Option.pure_def]
        rw [hr3]
        simp only [unwrapE, Option.bind_eq_bind, Option.some_bind, Bool.not_true, Bool.not_false,
      Bool.false_eq_true, Bool.true_eq_false, if_false, if_true, Option.pure_def]
        rw [hrp]
        simp only [unwrapE, Option.bind_eq_bind, Option.some_bind, Bool.not_true, Bool.not_false,
      Bool.false_eq_true, Bool.true_eq_false, if_false, if_true, Option.pure_def]
        have hx : bitsToNat (natBits 9 (toU64 dod &&& u64mask 9)) = toU64 dod % 2 ^ 9 := by
          rw [bitsToNat_natBits]
          have hm : u64mask 9 = 2 ^ 9 - 1 := by norm_num [u64mask]
          rw [hm, Nat.and_pow_two_sub_one_eq_mod, Nat.mod_mod_of_dvd _ dvd_rfl]
        rw [hx, toDod_range9 h9.1 h9.2, if_neg hz]
        simp only [Option.some.injEq, Prod.mk.injEq, GorillaReader.mk.injEq, BitReader.mk.injEq,
          and_true, true_and]
        omega
      · by_cases h12 : -2047 ≤ dod ∧ dod ≤ 2048
        ·

          have hE : encTime dod = true :: true :: true :: false :: natBits 12 (toU64 dod &&& u64mask 12) := by
            unfold encTime
            rw [if_neg hz, if_neg h7, if_neg h9, if_pos h12]
          have hlenE : (encTime dod).length = 16 := by
            rw [hE]; simp [natBits_length]
          rw [hlenE] at hn
          rw [hE] at hdrop
          simp only [List.cons_append] at hdrop
          have hr1 := readBit_at n₀ c₀ bs₀ hdrop (by omega)
          have hdrop1 := drop_cursor_succ _ _ _ _ hdrop
          have hr2 := readBit_at n₀ (c₀ + 1) bs₀ hdrop1 (by omega)
          have hdrop2 := drop_cursor_succ _ _ _ _ hdrop1
          have hr3 := readBit_at n₀ (c₀ + 1 + 1) bs₀ hdrop2 (by omega)
          have hdrop3 := drop_cursor_succ _ _ _ _ hdrop2
          have hr4 := readBit_at n₀ (c₀ + 1 + 1 + 1) bs₀ hdrop3 (by omega)
          have hdrop4 := drop_cursor_succ _ _ _ _ hdrop3
          have hclen : c₀ + 1 + 1 + 1 + 1 ≤ bs₀.length := by
            have h1 := congrArg List.length hdrop4
            simp [natBits_length] at h1
            omega
          have hrp := read_at n₀ (c₀ + 1 + 1 + 1 + 1) 12 bs₀ hdrop4 (natBits_length _ _) hclen (by omega)
          unfold GorillaReader.getNextTime
          rw [hr1]
          simp only [unwrapE, Option.bind_eq_bind, Option.some_bind, Bool.not_true, Bool.not_false,
      Bool.false_eq_true, Bool.true_eq_false, if_false, if_true, Option.pure_def]
          rw [hr2]
          simp only [unwrapE, Option.bind_eq_bind, Option.some_bind, Bool.not_true, Bool.not_false,
      Bool.false_eq_true, Bool.true_eq_false, if_false, if_true, Option.pure_def]
          rw [hr3]
          simp only [unwrapE, Option.bind_eq_bind, Option.some_bind, Bool.not_true, Bool.not_false,
      Bool.false_eq_true, Bool.true_eq_false, if_false, if_true, Option.pure_def]
          rw [hr4]
          simp only [unwrapE, Option.bind_eq_bind, Option.some_bind, Bool.not_true, Bool.not_false,
      Bool.false_eq_true, Bool.true_eq_false, if_false, if_true, Option.pure_def]
          rw [hrp]
          simp only [unwrapE, Option.bind_eq_bind, Option.some_bind, Bool.not_true, Bool.not_false,
      Bool.false_eq_true, Bool.true_eq_false, if_false, if_true, Option.pure_def]
          have hx : bitsToNat (natBits 12 (toU64 dod &&& u64mask 12)) = toU64 dod % 2 ^ 12 := by
            rw [bitsToNat_natBits]
            have hm : u64mask 12 = 2 ^ 12 - 1 := by norm_num [u64mask]
            rw [hm, Nat.and_pow_two_sub_one_eq_mod, Nat.mod_mod_of_dvd _ dvd_rfl]
          rw [hx, toDod_range12 h12.1 h12.2, if_neg hz]
          simp only [Option.some.injEq, Prod.mk.injEq, GorillaReader.mk.injEq, BitReader.mk.injEq,
            and_true, true_and]
          omega
        ·

          have hE : encTime dod = true :: true :: true :: true :: natBits 32 (toU64 dod &&& u64mask 32) := by
            unfold encTime
            rw [if_neg hz, if_neg h7, if_neg h9, if_neg h12]
          have hlenE : (encTime dod).length = 36 := by
            rw [hE]; simp [natBits_length]
          rw [hlenE] at hn
          rw [hE] at hdrop
          simp only [List.cons_append] at hdrop
          have hr1 := readBit_at n₀ c₀ bs₀ hdrop (by omega)
          have hdrop1 := drop_cursor_succ _ _ _ _ hdrop
          have hr2 := readBit_at n₀ (c₀ + 1) bs₀ hdrop1 (by omega)
          have hdrop2 := drop_cursor_succ _ _ _ _ hdrop1
          have hr3 := readBit_at n₀ (c₀ + 1 + 1) bs₀ hdrop2 (by omega)
          have hdrop3 := drop_cursor_succ _ _ _ _ hdrop2
          have hr4 := readBit_at n₀ (c₀ + 1 + 1 + 1) bs₀ hdrop3 (by omega)
          have hdrop4 := drop_cursor_succ _ _ _ _ hdrop3
          have hclen : c₀ + 1 + 1 + 1 + 1 ≤ bs₀.length := by
            have h1 := congrArg List.length hdrop4
            simp [natBits_length] at h1
            omega
          have hrp := read_at n₀ (c₀ + 1 + 1 + 1 + 1) 32 bs₀ hdrop4 (natBits_length _ _) hclen (by omega)
          unfold GorillaReader.getNextTime
          rw [hr1]
          simp only [unwrapE, Option.bind_eq_bind, Option.some_bind, Bool.not_true, Bool.not_false,
      Bool.false_eq_true, Bool.true_eq_false, if_false, if_true, Option.pure_def]
          rw [hr2]
          simp only [unwrapE, Option.bind_eq_bind, Option.some_bind, Bool.not_true, Bool.not_false,
      Bool.false_eq_true, Bool.true_eq_false, if_false, if_true, Option.pure_def]
          rw [hr3]
          simp only [unwrapE, Option.bind_eq_bind, Option.some_bind, Bool.not_true, Bool.not_false,
      Bool.false_eq_true, Bool.true_eq_false, if_false, if_true, Option.pure_def]
          rw [hr4]
          simp only [unwrapE, Option.bind_eq_bind, Option.some_bind, Bool.not_true, Bool.not_false,
      Bool.false_eq_true, Bool.true_eq_false, if_false, if_true, Option.pure_def]
          rw [hrp]
          simp only [unwrapE, Option.bind_eq_bind, Option.some_bind, Bool.not_true, Bool.not_false,
      Bool.false_eq_true, Bool.true_eq_false, if_false, if_true, Option.pure_def]
          have hx : bitsToNat (natBits 32 (toU64 dod &&& u64mask 32)) = toU64 dod % 2 ^ 32 := by
            rw [bitsToNat_natBits]
            have hm : u64mask 32 = 2 ^ 32 - 1 := by norm_num [u64mask]
            rw [hm, Nat.and_pow_two_sub_one_eq_mod, Nat.mod_mod_of_dvd _ dvd_rfl]
          rw [hx, toDod_range32 hlo hhi, if_neg hz]
          simp only [Option.some.injEq, Prod.mk.injEq, GorillaReader.mk.injEq, BitReader.mk.injEq,
            and_true, true_and]
          omega
/-! ### Claim C4: delta-of-delta boundary round trip -/

/-- C4: for every appended timestamp whose delta-of-delta is one of
`{0, ±63, ±64, ±255, ±256, ±2047, ±2048}`, encoding with `append_time` and
decoding with `get_next_time` reproduces exactly the appended timestamp;
each positive boundary value (`+64`, `+256`, `+2048`) is emitted with the
short prefix of its own range (`10`, `110`, `1110` respectively), and the
decoder sign-extends any raw payload exceeding the positive boundary of
its range (OR-ing with `~0 << N`, i.e. subtracting `2 ^ N`). -/
theorem C4_dod_boundary_roundtrip (dod : Int)
    (hmem : dod = 0 ∨ dod = -63 ∨ dod = 63 ∨ dod = -64 ∨ dod = 64 ∨ dod = -255 ∨ dod = 255 ∨
      dod = -256 ∨ dod = 256 ∨ dod = -2047 ∨ dod = 2047 ∨ dod = -2048 ∨ dod = 2048)
    (w : GorillaWriter) (t : Int)
    (hdelta : t - w.prev_ts = (w.prev_delta : Int) + dod)
    (h0 : 0 ≤ t - w.prev_ts) (h16 : t - w.prev_ts ≤ 16384) (hpd : w.prev_delta ≤ 16384) :
    ∃ w', w.appendTime t = .ok w' ∧
      (∀ (e₀ : Entry) (pv : Nat) (pz : Zeros) (rest : Bits),
        (GorillaReader.mk e₀ ⟨w.prev_ts, pv⟩ (w.prev_delta : Int) pz
            ⟨(w'.body.bits.drop w.body.bits.length).length, 0,
              (w'.body.bits.drop w.body.bits.length) ++ rest⟩).getNextTime.map Prod.fst
          = some t) ∧
      (dod = 64 → (w'.body.bits.drop w.body.bits.length).take 2 = [true, false]) ∧
      (dod = 256 → (w'.body.bits.drop w.body.bits.length).take 3 = [true, true, false]) ∧
      (dod = 2048 → (w'.body.bits.drop w.body.bits.length).take 4 = [true, true, true, false]) ∧
      (∀ x k mx : Nat,
        ((k = 7 ∧ mx = 64) ∨ (k = 9 ∧ mx = 256) ∨ (k = 12 ∧ mx = 2048) ∨
          (k = 32 ∧ mx = 2 ^ 31 - 1)) →
        x < 2 ^ k → mx < x → toDod x k mx = (x : Int) - 2 ^ k) := by
  have hrange : -(2 ^ 31) ≤ dod ∧ dod ≤ 2 ^ 31 - 1 := by
    rcases hmem with h | h | h | h | h | h | h | h | h | h | h | h | h <;> subst h <;> norm_num
  have hdd : t - w.prev_ts - (w.prev_delta : Int) = dod := by omega
  have henc := appendTime_ok w t h0 h16 hpd
  rw [hdd] at henc
  refine ⟨_, henc, ?_, ?_, ?_, ?_, ?_⟩
  · intro e₀ pv pz rest
    simp only [List.drop_left]
    have hspec := getNextTime_spec
      (GorillaReader.mk e₀ ⟨w.prev_ts, pv⟩ (w.prev_delta : Int) pz
        ⟨(encTime dod).length, 0, encTime dod ++ rest⟩) dod rest hrange.1 hrange.2
      (by simp) (by simp)
    rw [hspec]
    show some (w.prev_ts + (dod + (w.prev_delta : Int))) = some t
    congr 1
    omega
  · intro h64
    subst h64
    have hEnc : encTime (64 : Int) = true :: false :: natBits 7 (toU64 64 &&& u64mask 7) := by
      unfold encTime
      norm_num
    simp [List.drop_left, hEnc]
  · intro h256
    subst h256
    have hEnc : encTime (256 : Int)
        = true :: true :: false :: natBits 9 (toU64 256 &&& u64mask 9) := by
      unfold encTime
      norm_num
    simp [List.drop_left, hEnc]
  · intro h2048
    subst h2048
    have hEnc : encTime (2048 : Int)
        = true :: true :: true :: false :: natBits 12 (toU64 2048 &&& u64mask 12) := by
      unfold encTime
      norm_num
    simp [List.drop_left, hEnc]
  · intro x k mx hk hx hmx
    rcases hk with ⟨hk, hm⟩ | ⟨hk, hm⟩ | ⟨hk, hm⟩ | ⟨hk, hm⟩ <;> subst hk <;> subst hm <;>
      exact toDod_signExtend x _ _ (by norm_num) (by norm_num) hx hmx

/-- C4 witness: delta-of-delta `+64` appended on a fresh writer at header 0. -/
theorem C4_dod_boundary_roundtrip_witness :
    ∃ w', (GorillaWriter.withVec 0).appendTime 64 = .ok w' ∧
      (∀ (e₀ : Entry) (pv : Nat) (pz : Zeros) (rest : Bits),
        (GorillaReader.mk e₀ ⟨(GorillaWriter.withVec 0).prev_ts, pv⟩
            ((GorillaWriter.withVec 0).prev_delta : Int) pz
            ⟨(w'.body.bits.drop (GorillaWriter.withVec 0).body.bits.length).length, 0,
              (w'.body.bits.drop (GorillaWriter.withVec 0).body.bits.length) ++
                rest⟩).getNextTime.map Prod.fst
          = some 64) ∧
      ((64 : Int) = 64 →
        (w'.body.bits.drop (GorillaWriter.withVec 0).body.bits.length).take 2 = [true, false]) ∧
      ((64 : Int) = 256 →
        (w'.body.bits.drop (GorillaWriter.withVec 0).body.bits.length).take 3
          = [true, true, false]) ∧
      ((64 : Int) = 2048 →
        (w'.body.bits.drop (GorillaWriter.withVec 0).body.bits.length).take 4
          = [true, true, true, false]) ∧
      (∀ x k mx : Nat,
        ((k = 7 ∧ mx = 64) ∨ (k = 9 ∧ mx = 256) ∨ (k = 12 ∧ mx = 2048) ∨
          (k = 32 ∧ mx = 2 ^ 31 - 1)) →
        x < 2 ^ k → mx < x → toDod x k mx = (x : Int) - 2 ^ k) :=
  C4_dod_boundary_roundtrip 64 (by norm_num) (GorillaWriter.withVec 0) 64
    (by norm_num [GorillaWriter.withVec]) (by norm_num [GorillaWriter.withVec])
    (by norm_num [GorillaWriter.withVec]) (by norm_num [GorillaWriter.withVec])

/-! ### Value encode/decode characterisation -/

/-- Characterisation of `append_value` when the XOR falls inside the
current predictor window: prefix `10`, window unchanged. -/
theorem appendValue_inside (w : GorillaWriter) (value : Nat)
    (hx : value ^^^ w.prev_value ≠ 0)
    (hin : w.prev_zeros.leading ≤ lz64 (value ^^^ w.prev_value) ∧
           w.prev_zeros.trailing ≤ tz64 (value ^^^ w.prev_value)) :
    w.appendValue value = .ok
      { w with
        prev_value := value
        body := ⟨w.body.n + 2 + (64 - w.prev_zeros.leading - w.prev_zeros.trailing),
                 w.body.bits ++ true :: false ::
                   natBits (64 - w.prev_zeros.leading - w.prev_zeros.trailing)
                     (((value ^^^ w.prev_value) >>> w.prev_zeros.trailing) &&&
                       u64mask (64 - w.prev_zeros.leading - w.prev_zeros.trailing))⟩ } := by
  unfold GorillaWriter.appendValue
  rw [if_neg hx, if_pos hin]
  simp [BitWriter.writeBit, BitWriter.write, if_pos hin, List.append_assoc]

/-- Characterisation of `append_value` when the XOR falls outside the
window: prefix `11`, 5 bits of leading, 6 bits of nbits, window updated
to the XOR's `(leading, trailing)`. -/
theorem appendValue_outside (w : GorillaWriter) (value : Nat)
    (hx : value ^^^ w.prev_value ≠ 0)
    (hout : ¬ (w.prev_zeros.leading ≤ lz64 (value ^^^ w.prev_value) ∧
               w.prev_zeros.trailing ≤ tz64 (value ^^^ w.prev_value))) :
    w.appendValue value = .ok
      { w with
        prev_value := value
        prev_zeros := ⟨lz64 (value ^^^ w.prev_value), tz64 (value ^^^ w.prev_value)⟩
        body := ⟨w.body.n + 2 + 5 + 6 +
                   (64 - lz64 (value ^^^ w.prev_value) - tz64 (value ^^^ w.prev_value)),
                 w.body.bits ++ true :: true ::
                   (natBits 5 (lz64 (value ^^^ w.prev_value) &&& u64mask 5) ++
                    natBits 6 ((64 - lz64 (value ^^^ w.prev_value) -
                        tz64 (value ^^^ w.prev_value)) &&& u64mask 6) ++
                    natBits (64 - lz64 (value ^^^ w.prev_value) -
                        tz64 (value ^^^ w.prev_value))
                      (((value ^^^ w.prev_value) >>> tz64 (value ^^^ w.prev_value)) &&&
                        u64mask (64 - lz64 (value ^^^ w.prev_value) -
                          tz64 (value ^^^ w.prev_value))))⟩ } := by
  unfold GorillaWriter.appendValue
  rw [if_neg hx]
  simp [BitWriter.writeBit, BitWriter.write, if_neg hout, List.append_assoc]

/-- Decoding `get_next_value` at a `10`-prefixed field: the predictor
window is reused and unchanged. -/
theorem getNextValue_spec10 (r : GorillaReader) (payload rest : Bits)
    (hdrop : r.reader.bits.drop r.reader.c = true :: false :: (payload ++ rest))
    (hplen : payload.length = 64 - r.prev_zeros.leading - r.prev_zeros.trailing)
    (hn : r.reader.c + 2 + payload.length ≤ r.reader.n)
    (hbl : r.reader.n ≤ r.reader.bits.length) :
    r.getNextValue = some
      (r.prev_entry.value ^^^ ((bitsToNat payload <<< r.prev_zeros.trailing) % 2 ^ 64),
       { r with
         prev_entry := { r.prev_entry with value :=
           r.prev_entry.value ^^^ ((bitsToNat payload <<< r.prev_zeros.trailing) % 2 ^ 64) }
         reader := { r.reader with c := r.reader.c + 2 + payload.length } }) := by
  obtain ⟨e₀, pe₀, pdf₀, pz₀, rd₀⟩ := r
  obtain ⟨n₀, c₀, bs₀⟩ := rd₀
  simp only at hdrop hplen hn hbl ⊢
  have hr1 := readBit_at n₀ c₀ bs₀ hdrop (by omega)
  have hdrop1 := drop_cursor_succ _ _ _ _ hdrop
  have hr2 := readBit_at n₀ (c₀ + 1) bs₀ hdrop1 (by omega)
  have hdrop2 := drop_cursor_succ _ _ _ _ hdrop1
  have hrp := read_at n₀ (c₀ + 1 + 1) (64 - pz₀.leading - pz₀.trailing) bs₀ hdrop2
    (by omega) (by omega) (by omega)
  unfold GorillaReader.getNextValue
  rw [hr1]
  simp only [unwrapE, Option.bind_eq_bind, Option.some_bind, Bool.not_true, Bool.not_false,
    Bool.false_eq_true, Bool.true_eq_false, if_false, if_true, Option.pure_def]
  rw [hr2]
  simp only [unwrapE, Option.bind_eq_bind, Option.some_bind, Bool.not_true, Bool.not_false,
    Bool.false_eq_true, Bool.true_eq_false, if_false, if_true, Option.pure_def]
  rw [hrp]
  simp only [unwrapE, Option.bind_eq_bind, Option.some_bind, Option.pure_def,
    Option.some.injEq, Prod.mk.injEq, GorillaReader.mk.injEq, BitReader.mk.injEq,
    Entry.mk.injEq, and_true, true_and]
  omega

/-- Decoding `get_next_value` at an `11`-prefixed field: the predictor
window is updated to the transmitted `(leading, 64 - leading - nbits)`. -/
theorem getNextValue_spec11 (r : GorillaReader) (lb nb payload rest : Bits)
    (hdrop : r.reader.bits.drop r.reader.c
      = true :: true :: (lb ++ (nb ++ (payload ++ rest))))
    (hlb : lb.length = 5) (hnb : nb.length = 6)
    (hp : payload.length = bitsToNat nb)
    (hn : r.reader.c + 13 + payload.length ≤ r.reader.n)
    (hbl : r.reader.n ≤ r.reader.bits.length) :
    r.getNextValue = some
      (r.prev_entry.value ^^^
         ((bitsToNat payload <<< (64 - bitsToNat lb - bitsToNat nb)) % 2 ^ 64),
       { r with
         prev_zeros := ⟨bitsToNat lb, 64 - bitsToNat lb - bitsToNat nb⟩
         prev_entry := { r.prev_entry with value :=
           r.prev_entry.value ^^^
             ((bitsToNat payload <<< (64 - bitsToNat lb - bitsToNat nb)) % 2 ^ 64) }
         reader := { r.reader with c := r.reader.c + 13 + payload.length } }) := by
  obtain ⟨e₀, pe₀, pdf₀, pz₀, rd₀⟩ := r
  obtain ⟨n₀, c₀, bs₀⟩ := rd₀
  simp only at hdrop hn hbl ⊢
  have hr1 := readBit_at n₀ c₀ bs₀ hdrop (by omega)
  have hdrop1 := drop_cursor_succ _ _ _ _ hdrop
  have hr2 := readBit_at n₀ (c₀ + 1) bs₀ hdrop1 (by omega)
  have hdrop2 := drop_cursor_succ _ _ _ _ hdrop1
  have hr3 := read_at n₀ (c₀ + 1 + 1) 5 bs₀ hdrop2 hlb (by omega) (by omega)
  have hdrop3 := drop_cursor_add _ _ _ _ hdrop2
  rw [hlb] at hdrop3
  have hr4 := read_at n₀ (c₀ + 1 + 1 + 5) 6 bs₀ hdrop3 hnb (by omega) (by omega)
  have hdrop4 := drop_cursor_add _ _ _ _ hdrop3
  rw [hnb] at hdrop4
  have hr5 := read_at n₀ (c₀ + 1 + 1 + 5 + 6) (bitsToNat nb) bs₀ hdrop4 hp
    (by omega) (by omega)
  unfold GorillaReader.getNextValue
  rw [hr1]
  simp only [unwrapE, Option.bind_eq_bind, Option.some_bind, Bool.not_true, Bool.not_false,
    Bool.false_eq_true, Bool.true_eq_false, if_false, if_true, Option.pure_def]
  rw [hr2]
  simp only [unwrapE, Option.bind_eq_bind, Option.some_bind, Bool.not_true, Bool.not_false,
    Bool.false_eq_true, Bool.true_eq_false, if_false, if_true, Option.pure_def]
  rw [hr3]
  simp only [unwrapE, Option.bind_eq_bind, Option.some_bind, Option.pure_def]
  rw [hr4]
  simp only [unwrapE, Option.bind_eq_bind, Option.some_bind, Option.pure_def]
  rw [hr5]
  simp only [unwrapE, Option.bind_eq_bind, Option.some_bind, Option.pure_def,
    Option.some.injEq, Prod.mk.injEq, GorillaReader.mk.injEq, BitReader.mk.injEq,
    Entry.mk.injEq, Zeros.mk.injEq, and_true, true_and]
  omega

/-! ### Claim C5: predictor window persistence -/

/-- C5: a non-zero XOR inside the previous window is written with the
2-bit prefix `10` and leaves the predictor window unchanged; otherwise
the prefix `11` is written followed by 5 bits of leading and 6 bits of
nbits and the window becomes the XOR's `(leading, trailing)`; the
decoder mirrors this, reusing the window on `10` and updating it on
`11`. -/
theorem C5_predictor_persistence (w : GorillaWriter) (value : Nat)
    (hx : value ^^^ w.prev_value ≠ 0) :
    ((w.prev_zeros.leading ≤ lz64 (value ^^^ w.prev_value) ∧
      w.prev_zeros.trailing ≤ tz64 (value ^^^ w.prev_value)) →
      ∃ w', w.appendValue value = .ok w' ∧ w'.prev_zeros = w.prev_zeros ∧
        (w'.body.bits.drop w.body.bits.length).take 2 = [true, false]) ∧
    (¬ (w.prev_zeros.leading ≤ lz64 (value ^^^ w.prev_value) ∧
        w.prev_zeros.trailing ≤ tz64 (value ^^^ w.prev_value)) →
      ∃ w', w.appendValue value = .ok w' ∧
        w'.prev_zeros = ⟨lz64 (value ^^^ w.prev_value), tz64 (value ^^^ w.prev_value)⟩ ∧
        w'.body.bits.drop w.body.bits.length
          = true :: true ::
            (natBits 5 (lz64 (value ^^^ w.prev_value) &&& u64mask 5) ++
             natBits 6 ((64 - lz64 (value ^^^ w.prev_value) -
                 tz64 (value ^^^ w.prev_value)) &&& u64mask 6) ++
             natBits (64 - lz64 (value ^^^ w.prev_value) - tz64 (value ^^^ w.prev_value))
               (((value ^^^ w.prev_value) >>> tz64 (value ^^^ w.prev_value)) &&&
                 u64mask (64 - lz64 (value ^^^ w.prev_value) -
                   tz64 (value ^^^ w.prev_value))))) ∧
    (∀ (r : GorillaReader) (payload rest : Bits),
      r.reader.bits.drop r.reader.c = true :: false :: (payload ++ rest) →
      payload.length = 64 - r.prev_zeros.leading - r.prev_zeros.trailing →
      r.reader.c + 2 + payload.length ≤ r.reader.n →
      r.reader.n ≤ r.reader.bits.length →
      ∃ v r', r.getNextValue = some (v, r') ∧ r'.prev_zeros = r.prev_zeros) ∧
    (∀ (r : GorillaReader) (lb nb payload rest : Bits),
      r.reader.bits.drop r.reader.c = true :: true :: (lb ++ (nb ++ (payload ++ rest))) →
      lb.length = 5 → nb.length = 6 → payload.length = bitsToNat nb →
      r.reader.c + 13 + payload.length ≤ r.reader.n →
      r.reader.n ≤ r.reader.bits.length →
      ∃ v r', r.getNextValue = some (v, r') ∧
        r'.prev_zeros = ⟨bitsToNat lb, 64 - bitsToNat lb - bitsToNat nb⟩) := by
  refine ⟨?_, ?_, ?_, ?_⟩
  · intro hin
    refine ⟨_, appendValue_inside w value hx hin, rfl, ?_⟩
    simp [List.drop_left]
  · intro hout
    refine ⟨_, appendValue_outside w value hx hout, rfl, ?_⟩
    simp only [List.drop_left]
  · intro r payload rest hdrop hplen hn hbl
    exact ⟨_, _, getNextValue_spec10 r payload rest hdrop hplen hn hbl, rfl⟩
  · intro r lb nb payload rest hdrop hlb hnb hp hn hbl
    exact ⟨_, _, getNextValue_spec11 r lb nb payload rest hdrop hlb hnb hp hn hbl, rfl⟩

/-- C5 witness: value with bit pattern 1 appended on a fresh writer
(XOR 1, outside the initial window), instantiating the outside-window
conjunct of the claim theorem. -/
theorem C5_predictor_persistence_witness :
    (1 : Nat) ^^^ (GorillaWriter.withVec 0).prev_value ≠ 0 ∧
    (¬ ((GorillaWriter.withVec 0).prev_zeros.leading ≤
          lz64 ((1 : Nat) ^^^ (GorillaWriter.withVec 0).prev_value) ∧
        (GorillaWriter.withVec 0).prev_zeros.trailing ≤
          tz64 ((1 : Nat) ^^^ (GorillaWriter.withVec 0).prev_value)) →
      ∃ w', (GorillaWriter.withVec 0).appendValue 1 = .ok w' ∧
        w'.prev_zeros = ⟨lz64 ((1 : Nat) ^^^ (GorillaWriter.withVec 0).prev_value),
          tz64 ((1 : Nat) ^^^ (GorillaWriter.withVec 0).prev_value)⟩ ∧
        w'.body.bits.drop (GorillaWriter.withVec 0).body.bits.length
          = true :: true ::
            (natBits 5 (lz64 ((1 : Nat) ^^^ (GorillaWriter.withVec 0).prev_value)
                &&& u64mask 5) ++
             natBits 6 ((64 - lz64 ((1 : Nat) ^^^ (GorillaWriter.withVec 0).prev_value) -
                 tz64 ((1 : Nat) ^^^ (GorillaWriter.withVec 0).prev_value)) &&& u64mask 6) ++
             natBits (64 - lz64 ((1 : Nat) ^^^ (GorillaWriter.withVec 0).prev_value) -
                 tz64 ((1 : Nat) ^^^ (GorillaWriter.withVec 0).prev_value))
               ((((1 : Nat) ^^^ (GorillaWriter.withVec 0).prev_value) >>>
                   tz64 ((1 : Nat) ^^^ (GorillaWriter.withVec 0).prev_value)) &&&
                 u64mask (64 - lz64 ((1 : Nat) ^^^ (GorillaWriter.withVec 0).prev_value) -
                   tz64 ((1 : Nat) ^^^ (GorillaWriter.withVec 0).prev_value))))) :=
  ⟨by decide,
    (C5_predictor_persistence (GorillaWriter.withVec 0) 1 (by decide)).2.1⟩

/-! ### Multivariate Gorilla writer (`src/gorilla/writer_mv.rs`) -/

/-- The multivariate entry of `src/gorilla/mod.rs`: a timestamp and a
vector of `f64` bit patterns. -/
structure MVEntry where
  time : Int
  values : List Nat
deriving Repr, DecidableEq

/-- A compressed block wraps a bit stream. -/
structure GorillaBlock where
  data : BitStream
deriving Repr, DecidableEq

structure GorillaWriterMV where
  dim : Nat
  header : Int
  prev_ts : Int
  prev_delta : Nat
  prev_value : List Nat
  prev_zeros : List Zeros
  body : BitWriter
deriving Repr, DecidableEq

/-- Model of `GorillaWriterMV::with_vec`. -/
def GorillaWriterMV.withVec (header : Int) (dim : Nat) : GorillaWriterMV :=
  { dim := dim, header := header, prev_ts := header, prev_delta := 0
    prev_value := List.replicate dim 0
    prev_zeros := List.replicate dim ⟨32, 32⟩
    body := BitWriter.new.write 64 (toU64 header) }

def GorillaWriterMV.close (w : GorillaWriterMV) : GorillaBlock :=
  { data := w.body.close }

/-- Model of `GorillaWriterMV::validate_values`. -/
def GorillaWriterMV.validateValues (w : GorillaWriterMV) (values : List Nat) :
    Except GError Unit :=
  if values.length ≠ w.dim then .error .badDimensionError else .ok ()

/-- Model of `GorillaWriterMV::validate_timestamp`. -/
def GorillaWriterMV.validateTimestamp (w : GorillaWriterMV) (time : Int) :
    Except GError Nat :=
  let delta := time - w.prev_ts
  if delta < 0 then .error .appendOrderError
  else if delta > 16384 then .error .appendDurationError
  else .ok delta.toNat

/-- Model of `GorillaWriterMV::append_time`, in state-passing form: the
pair carries the Rust return value and the state of `self` when the
function returns (an early `?` return happens before any mutation). -/
def GorillaWriterMV.appendTime (w : GorillaWriterMV) (time : Int) :
    Except GError Unit × GorillaWriterMV :=
  match w.validateTimestamp time with
  | .error e => (.error e, w)
  | .ok delta =>
    let dod : Int := i32wrap (u32AsI32 delta - u32AsI32 w.prev_delta)
    let w1 := { w with prev_delta := delta, prev_ts := time }
    if dod = 0 then
      (.ok (), { w1 with body := w1.body.writeBit false })
    else if -63 ≤ dod ∧ dod ≤ 64 then
      let b := ((w1.body.writeBit true).writeBit false).write 7 (toU64 dod)
      (.ok (), { w1 with body := b })
    else if -255 ≤ dod ∧ dod ≤ 256 then
      let b := (((w1.body.writeBit true).writeBit true).writeBit false).write 9 (toU64 dod)
      (.ok (), { w1 with body := b })
    else if -2047 ≤ dod ∧ dod ≤ 2048 then
      let b3 := ((w1.body.writeBit true).writeBit true).writeBit true
      let b := (b3.writeBit false).write 12 (toU64 dod)
      (.ok (), { w1 with body := b })
    else
      let b3 := ((w1.body.writeBit true).writeBit true).writeBit true
      let b := (b3.writeBit true).write 32 (toU64 dod)
      (.ok (), { w1 with body := b })

/-- One iteration of the `append_values` loop of `writer_mv.rs`, on one
dimension's previous value, window and new value. -/
def appendValuesStep (body : BitWriter) (pv : Nat) (z : Zeros) (v : Nat) :
    BitWriter × Nat × Zeros :=
  let xored := v ^^^ pv
  let inside := z.leading ≤ lz64 xored ∧ z.trailing ≤ tz64 xored
  let leading := if inside then z.leading else lz64 xored
  let trailing := if inside then z.trailing else tz64 xored
  let nbits := 64 - leading - trailing
  let toWrite := xored >>> trailing
  if xored = 0 then
    (body.writeBit false, v, z)
  else if inside then
    (((body.writeBit true).writeBit false).write nbits toWrite, v, z)
  else
    let bhead := ((body.writeBit true).writeBit true).write 5 leading
    ((bhead.write 6 nbits).write nbits toWrite, v, ⟨leading, trailing⟩)

/-- The `for i in 0..dim` loop of `append_values`, iterating the three
per-dimension sequences in lockstep.  The final catch-all arm is
unreachable for writers built through the API, whose `prev_value` and
`prev_zeros` always have exactly `dim` elements. -/
def appendValuesLoop (body : BitWriter) :
    List Nat → List Zeros → List Nat → BitWriter × List Nat × List Zeros
  | _, _, [] => (body, [], [])
  | pv :: pvs, z :: zs, v :: vs =>
    let s := appendValuesStep body pv z v
    let t := appendValuesLoop s.1 pvs zs vs
    (t.1, s.2.1 :: t.2.1, s.2.2 :: t.2.2)
  | _, _, _ => (body, [], [])

/-- Model of `GorillaWriterMV::append_values` (state-passing). -/
def GorillaWriterMV.appendValues (w : GorillaWriterMV) (values : List Nat) :
    Except GError Unit × GorillaWriterMV :=
  match w.validateValues values with
  | .error e => (.error e, w)
  | .ok _ =>
    let t := appendValuesLoop w.body w.prev_value w.prev_zeros values
    (.ok (), { w with body := t.1, prev_value := t.2.1, prev_zeros := t.2.2 })

/-- Model of `GorillaWriterMV::append_entry` (state-passing): validate
the vector length, then append the timestamp, then the values. -/
def GorillaWriterMV.appendEntry (w : GorillaWriterMV) (entry : MVEntry) :
    Except GError Unit × GorillaWriterMV :=
  match w.validateValues entry.values with
  | .error e => (.error e, w)
  | .ok _ =>
    match w.appendTime entry.time with
    | (.error e, w1) => (.error e, w1)
    | (.ok _, w1) =>
      match w1.appendValues entry.values with
      | (.error e, w2) => (.error e, w2)
      | (.ok _, w2) => (.ok (), w2)

/-- Model of `GorillaWriterMV::append_first`. -/
def GorillaWriterMV.appendFirst (w : GorillaWriterMV) (entry : MVEntry) :
    Except GError Unit × GorillaWriterMV :=
  match w.validateTimestamp entry.time with
  | .error e => (.error e, w)
  | .ok delta =>
    let b := entry.values.foldl (fun b v => b.write 64 v) (w.body.write 14 delta)
    (.ok (), { w with body := b, prev_value := entry.values, prev_ts := entry.time,
                      prev_delta := delta })

/-! ### Multivariate Gorilla reader (`src/gorilla/reader_mv.rs`) -/

structure GorillaReaderMV where
  dim : Nat
  entry : MVEntry
  prev_entry : MVEntry
  prev_diff : Int
  prev_zeros : List Zeros
  reader : BitReader
deriving Repr, DecidableEq

/-- Model of `GorillaReaderMV::from_block`: read only the 64-bit header
timestamp; everything else is driven by later calls. -/
def GorillaReaderMV.fromBlock (block : GorillaBlock) (dim : Nat) :
    Option GorillaReaderMV := do
  let (hts, rd1) ← unwrapE ((BitReader.new block.data).read 64)
  let header := toI64 hts
  some { dim := dim
         entry := ⟨header, List.replicate dim 0⟩
         prev_entry := ⟨header, List.replicate dim 0⟩
         prev_diff := 0
         prev_zeros := List.replicate dim ⟨32, 32⟩
         reader := rd1 }

/-- Model of `GorillaReaderMV::get_next_time`; as in the scalar reader,
the zero branch returns early without updating `prev_entry`/`prev_diff`. -/
def GorillaReaderMV.getNextTime (r : GorillaReaderMV) : Option (Int × GorillaReaderMV) := do
  let (b1, rd1) ← unwrapE r.reader.readBit
  if !b1 then
    return (r.prev_entry.time + r.prev_diff, { r with reader := rd1 })
  else
    let (b2, rd2) ← unwrapE rd1.readBit
    let (bits, mx, rdp) ←
      if !b2 then
        pure ((7 : Nat), (64 : Nat), rd2)
      else do
        let (b3, rd3) ← unwrapE rd2.readBit
        if !b3 then
          pure ((9 : Nat), (256 : Nat), rd3)
        else do
          let (b4, rd4) ← unwrapE rd3.readBit
          if !b4 then
            pure ((12 : Nat), (2048 : Nat), rd4)
          else
            pure ((32 : Nat), (2 ^ 31 - 1 : Nat), rd4)
    let (x, rd5) ← unwrapE (rdp.read bits)
    let dod := toDod x bits mx
    let diff := dod + r.prev_diff
    let time := r.prev_entry.time + diff
    let pe := { r.prev_entry with time := time }
    return (time, { r with prev_entry := pe, prev_diff := diff, reader := rd5 })

/-- One iteration of the `get_next_values` loop of `reader_mv.rs` on one
dimension's previous value and window. -/
def nextValueStep (pv : Nat) (z : Zeros) (rd : BitReader) :
    Option (Nat × Zeros × BitReader) := do
  let (b1, rd1) ← unwrapE rd.readBit
  if !b1 then
    some (pv, z, rd1)
  else
    let (b2, rd2) ← unwrapE rd1.readBit
    if !b2 then
      let nbits := 64 - z.leading - z.trailing
      let (x, rd3) ← unwrapE (rd2.read nbits)
      let xored := (x <<< z.trailing) % 2 ^ 64
      some (pv ^^^ xored, z, rd3)
    else
      let (leading, rd3) ← unwrapE (rd2.read 5)
      let (nbits, rd4) ← unwrapE (rd3.read 6)
      let trailing := 64 - leading - nbits
      let (x, rd5) ← unwrapE (rd4.read nbits)
      let xored := (x <<< trailing) % 2 ^ 64
      some (pv ^^^ xored, ⟨leading, trailing⟩, rd5)

/-- The `for i in 0..dim` loop of `get_next_values`.  The catch-all arm
is unreachable for readers built through the API. -/
def nextValuesLoop : List Nat → List Zeros → BitReader →
    Option (List Nat × List Zeros × BitReader)
  | [], [], rd => some ([], [], rd)
  | pv :: pvs, z :: zs, rd => do
    let (v, z1, rd1) ← nextValueStep pv z rd
    let (vs, zs1, rd2) ← nextValuesLoop pvs zs rd1
    some (v :: vs, z1 :: zs1, rd2)
  | _, _, _ => none

/-- Model of `GorillaReaderMV::get_next_values`. -/
def GorillaReaderMV.getNextValues (r : GorillaReaderMV) :
    Option (List Nat × GorillaReaderMV) := do
  let (vs, zs, rd) ← nextValuesLoop r.prev_entry.values r.prev_zeros r.reader
  let pe := { r.prev_entry with values := vs }
  some (vs, { r with prev_zeros := zs, prev_entry := pe, reader := rd })

/-! ### Codec API (`src/gorilla/api.rs`) -/

/-- The `for` loop of `compress_values`; the `assert!` on a failed
append is a panic, modelled by `none`. -/
def compressLoop (w : GorillaWriterMV) : List MVEntry → Option GorillaWriterMV
  | [] => some w
  | e :: es =>
    match w.appendEntry e with
    | (.ok _, w1) => compressLoop w1 es
    | (.error _, _) => none

/-- Model of `compress_values`. -/
def compressValues (mvEntries : List MVEntry) (header : Int) (dim : Nat) :
    Option GorillaBlock :=
  (compressLoop (GorillaWriterMV.withVec header dim) mvEntries).map
    GorillaWriterMV.close

/-- The `for i in 0..num_entries` loop of `retrieve_values`. -/
def retrieveLoop (r : GorillaReaderMV) : Nat → Option (List MVEntry)
  | 0 => some []
  | n + 1 => do
    let (ts, r1) ← r.getNextTime
    let (vs, r2) ← r1.getNextValues
    let rest ← retrieveLoop r2 n
    some (⟨ts, vs⟩ :: rest)

/-- Model of `retrieve_values`. -/
def retrieveValues (block : GorillaBlock) (dim numEntries : Nat) :
    Option (List MVEntry) := do
  let r ← GorillaReaderMV.fromBlock block dim
  retrieveLoop r numEntries

/-- Compression followed by decompression with the same dimension and
the sample count. -/
def roundTrip (mvEntries : List MVEntry) (header : Int) (dim count : Nat) :
    Option (List MVEntry) :=
  match compressValues mvEntries header dim with
  | some blk => retrieveValues blk dim count
  | none => none

/-! ### Well-behaved runs of the multivariate codec -/

/-- Conditions on one dimension's XOR under which the value encoding is
invertible: zero, inside the current window, or a window update whose
5-bit leading field and 6-bit nbits field are not truncated. -/
def goodXor (pv : Nat) (z : Zeros) (v : Nat) : Bool :=
  decide (v < 2 ^ 64) &&
  (let x := v ^^^ pv
   (x == 0) ||
   (decide (z.leading ≤ lz64 x) && decide (z.trailing ≤ tz64 x)) ||
   (decide (lz64 x ≤ 31) && decide (1 ≤ lz64 x + tz64 x)))

def goodValues : List Nat → List Zeros → List Nat → Bool
  | [], [], [] => true
  | pv :: pvs, z :: zs, v :: vs => goodXor pv z v && goodValues pvs zs vs
  | _, _, _ => false

/-- Conditions on one appended entry: matching dimension, a delta in
`[0, 16384]`, a delta-of-delta that is either non-zero or has zero
delta (the reader's zero branch does not update its state), and
invertible value XORs. -/
def goodStep (w : GorillaWriterMV) (e : MVEntry) : Bool :=
  decide (e.values.length = w.dim) &&
  decide (0 ≤ e.time - w.prev_ts) && decide (e.time - w.prev_ts ≤ 16384) &&
  (decide (e.time - w.prev_ts - (w.prev_delta : Int) ≠ 0) || decide (e.time = w.prev_ts)) &&
  goodValues w.prev_value w.prev_zeros e.values

/-- A well-behaved run: every appended entry satisfies `goodStep` for
the writer state it is appended on. -/
def goodRun (w : GorillaWriterMV) : List MVEntry → Bool
  | [] => true
  | e :: es =>
    goodStep w e &&
      (match w.appendEntry e with
       | (.ok _, w1) => goodRun w1 es
       | (.error _, _) => false)

/-! ### Multivariate timestamp encode/decode correspondence -/

theorem appendTimeMV_ok (w : GorillaWriterMV) (t : Int)
    (h0 : 0 ≤ t - w.prev_ts) (h16 : t - w.prev_ts ≤ 16384) (hpd : w.prev_delta ≤ 16384) :
    w.appendTime t = (.ok (),
      { w with
        prev_ts := t
        prev_delta := (t - w.prev_ts).toNat
        body := ⟨w.body.n + (encTime (t - w.prev_ts - (w.prev_delta : Int))).length,
                 w.body.bits ++ encTime (t - w.prev_ts - (w.prev_delta : Int))⟩ }) := by
  have hnl : ¬ (t - w.prev_ts < 0) := by omega
  have hng : ¬ (t - w.prev_ts > 16384) := by omega
  have hdodeq : i32wrap (u32AsI32 (t - w.prev_ts).toNat - u32AsI32 w.prev_delta)
      = t - w.prev_ts - (w.prev_delta : Int) := by
    rw [u32AsI32_eq_self (by omega), u32AsI32_eq_self (by omega)]
    rw [i32wrap_eq_self (by omega) (by omega)]
    omega
  unfold GorillaWriterMV.appendTime GorillaWriterMV.validateTimestamp
  simp only [hnl, hng, if_false, hdodeq]
  unfold encTime
  split_ifs with hc1 hc2 hc3 hc4 <;>
    simp [BitWriter.writeBit, BitWriter.write, natBits_length, List.append_assoc]

/-- Multivariate analogue of `getNextTime_spec`. -/
theorem getNextTimeMV_spec (r : GorillaReaderMV) (dod : Int) (rest : Bits)
    (hlo : -(2 ^ 31) ≤ dod) (hhi : dod ≤ 2 ^ 31 - 1)
    (hdrop : r.reader.bits.drop r.reader.c = encTime dod ++ rest)
    (hn : r.reader.c + (encTime dod).length ≤ r.reader.n) :
    r.getNextTime = some (r.prev_entry.time + (dod + r.prev_diff),
      if dod = 0 then
        { r with reader := { r.reader with c := r.reader.c + 1 } }
      else
        { r with
          prev_entry := { r.prev_entry with time := r.prev_entry.time + (dod + r.prev_diff) }
          prev_diff := dod + r.prev_diff
          reader := { r.reader with c := r.reader.c + (encTime dod).length } }) := by
  obtain ⟨d₀, e₀, pe₀, pdf₀, pz₀, rd₀⟩ := r
  obtain ⟨n₀, c₀, bs₀⟩ := rd₀
  simp only at hdrop hn ⊢
  by_cases hz : dod = 0
  · have hE : encTime dod = [false] := by simp [encTime, hz]
    rw [hE] at hdrop hn
    simp only [List.singleton_append, List.length_singleton] at hdrop hn
    have hr1 := readBit_at n₀ c₀ bs₀ hdrop (by omega)
    unfold GorillaReaderMV.getNextTime
    rw [hr1]
    simp [unwrapE, hz]
  · by_cases h7 : -63 ≤ dod ∧ dod ≤ 64
    ·

      have hE : encTime dod = true :: false :: natBits 7 (toU64 dod &&& u64mask 7) := by
        unfold encTime
        rw [if_neg hz, if_pos h7]
      have hlenE : (encTime dod).length = 9 := by
        rw [hE]; simp [natBits_length]
      rw [hlenE] at hn
      rw [hE] at hdrop
      simp only [List.cons_append] at hdrop
      have hr1 := readBit_at n₀ c₀ bs₀ hdrop (by omega)
      have hdrop1 := drop_cursor_succ _ _ _ _ hdrop
      have hr2 := readBit_at n₀ (c₀ + 1) bs₀ hdrop1 (by omega)
      have hdrop2 := drop_cursor_succ _ _ _ _ hdrop1
      have hclen : c₀ + 1 + 1 ≤ bs₀.length := by
        have h1 := congrArg List.length hdrop2
        simp [natBits_length] at h1
        omega
      have hrp := read_at n₀ (c₀ + 1 + 1) 7 bs₀ hdrop2 (natBits_length _ _) hclen (by omega)
      unfold GorillaReaderMV.getNextTime
      rw [hr1]
      simp only [unwrapE, Option.bind_eq_bind, Option.some_bind, Bool.not_true, Bool.not_false,
      Bool.false_eq_true, Bool.true_eq_false, if_false, if_true, Option.pure_def]
      rw [hr2]
      simp only [unwrapE, Option.bind_eq_bind, Option.some_bind, Bool.not_true, Bool.not_false,
      Bool.false_eq_true, Bool.true_eq_false, if_false, if_true, Option.pure_def]
      rw [hrp]
      simp only [unwrapE, Option.bind_eq_bind, Option.some_bind, Bool.not_true, Bool.not_false,
      Bool.false_eq_true, Bool.true_eq_false, if_false, if_true, Option.pure_def]
      have hx : bitsToNat (natBits 7 (toU64 dod &&& u64mask 7)) = toU64 dod % 2 ^ 7 := by
        rw [bitsToNat_natBits]
        have hm : u64mask 7 = 2 ^ 7 - 1 := by norm_num [u64mask]
        rw [hm, Nat.and_pow_two_sub_one_eq_mod, Nat.mod_mod_of_dvd _ dvd_rfl]
      rw [hx, toDod_range7 h7.1 h7.2, if_neg hz]
      simp only [Option.some.injEq, Prod.mk.injEq, GorillaReaderMV.mk.injEq, BitReader.mk.injEq,
        and_true, true_and]
      omega
    · by_cases h9 : -255 ≤ dod ∧ dod ≤ 256
      ·

        have hE : encTime dod = true :: true :: false :: natBits 9 (toU64 dod &&& u64mask 9) := by
          unfold encTime
          rw [if_neg hz, if_neg h7, if_pos h9]
        have hlenE : (encTime dod).length = 12 := by
          rw [hE]; simp [natBits_length]
        rw [hlenE] at hn
        rw [hE] at hdrop
        simp only [List.cons_append] at hdrop
        have hr1 := readBit_at n₀ c₀ bs₀ hdrop (by omega)
        have hdrop1 := drop_cursor_succ _ _ _ _ hdrop
        have hr2 := readBit_at n₀ (c₀ + 1) bs₀ hdrop1 (by omega)
        have hdrop2 := drop_cursor_succ _ _ _ _ hdrop1
        have hr3 := readBit_at n₀ (c₀ + 1 + 1) bs₀ hdrop2 (by omega)
        have hdrop3 := drop_cursor_succ _ _ _ _ hdrop2
        have hclen : c₀ + 1 + 1 + 1 ≤ bs₀.length := by
          have h1 := congrArg List.length hdrop3
          simp [natBits_length] at h1
          omega
        have hrp := read_at n₀ (c₀ + 1 + 1 + 1) 9 bs₀ hdrop3 (natBits_length _ _) hclen (by omega)
        unfold GorillaReaderMV.getNextTime
        rw [hr1]
        simp only [unwrapE, Option.bind_eq_bind, Option.some_bind, Bool.not_true, Bool.not_false,
      Bool.false_eq_true, Bool.true_eq_false, if_false, if_true, Option.pure_def]
        rw [hr2]
        simp only [unwrapE, Option.bind_eq_bind, Option.some_bind, Bool.not_true, Bool.not_false,
      Bool.false_eq_true, Bool.true_eq_false, if_false, if_true, Option.pure_def]
        rw [hr3]
        simp only [unwrapE, Option.bind_eq_bind, Option.some_bind, Bool.not_true, Bool.not_false,
      Bool.false_eq_true, Bool.true_eq_false, if_false, if_true, Option.pure_def]
        rw [hrp]
        simp only [unwrapE, Option.bind_eq_bind, Option.some_bind, Bool.not_true, Bool.not_false,
      Bool.false_eq_true, Bool.true_eq_false, if_false, if_true, Option.pure_def]
        have hx : bitsToNat (natBits 9 (toU64 dod &&& u64mask 9)) = toU64 dod % 2 ^ 9 := by
          rw [bitsToNat_natBits]
          have hm : u64mask 9 = 2 ^ 9 - 1 := by norm_num [u64mask]
          rw [hm, Nat.and_pow_two_sub_one_eq_mod, Nat.mod_mod_of_dvd _ dvd_rfl]
        rw [hx, toDod_range9 h9.1 h9.2, if_neg hz]
        simp only [Option.some.injEq, Prod.mk.injEq, GorillaReaderMV.mk.injEq, BitReader.mk.injEq,
          and_true, true_and]
        omega
      · by_cases h12 : -2047 ≤ dod ∧ dod ≤ 2048
        ·

          have hE : encTime dod = true :: true :: true :: false :: natBits 12 (toU64 dod &&& u64mask 12) := by
            unfold encTime
            rw [if_neg hz, if_neg h7, if_neg h9, if_pos h12]
          have hlenE : (encTime dod).length = 16 := by
            rw [hE]; simp [natBits_length]
          rw [hlenE] at hn
          rw [hE] at hdrop
          simp only [List.cons_append] at hdrop
          have hr1 := readBit_at n₀ c₀ bs₀ hdrop (by omega)
          have hdrop1 := drop_cursor_succ _ _ _ _ hdrop
          have hr2 := readBit_at n₀ (c₀ + 1) bs₀ hdrop1 (by omega)
          have hdrop2 := drop_cursor_succ _ _ _ _ hdrop1
          have hr3 := readBit_at n₀ (c₀ + 1 + 1) bs₀ hdrop2 (by omega)
          have hdrop3 := drop_cursor_succ _ _ _ _ hdrop2
          have hr4 := readBit_at n₀ (c₀ + 1 + 1 + 1) bs₀ hdrop3 (by omega)
          have hdrop4 := drop_cursor_succ _ _ _ _ hdrop3
          have hclen : c₀ + 1 + 1 + 1 + 1 ≤ bs₀.length := by
            have h1 := congrArg List.length hdrop4
            simp [natBits_length] at h1
            omega
          have hrp := read_at n₀ (c₀ + 1 + 1 + 1 + 1) 12 bs₀ hdrop4 (natBits_length _ _) hclen (by omega)
          unfold GorillaReaderMV.getNextTime
          rw [hr1]
          simp only [unwrapE, Option.bind_eq_bind, Option.some_bind, Bool.not_true, Bool.not_false,
      Bool.false_eq_true, Bool.true_eq_false, if_false, if_true, Option.pure_def]
          rw [hr2]
          simp only [unwrapE, Option.bind_eq_bind, Option.some_bind, Bool.not_true, Bool.not_false,
      Bool.false_eq_true, Bool.true_eq_false, if_false, if_true, Option.pure_def]
          rw [hr3]
          simp only [unwrapE, Option.bind_eq_bind, Option.some_bind, Bool.not_true, Bool.not_false,
      Bool.false_eq_true, Bool.true_eq_false, if_false, if_true, Option.pure_def]
          rw [hr4]
          simp only [unwrapE, Option.bind_eq_bind, Option.some_bind, Bool.not_true, Bool.not_false,
      Bool.false_eq_true, Bool.true_eq_false, if_false, if_true, Option.pure_def]
          rw [hrp]
          simp only [unwrapE, Option.bind_eq_bind, Option.some_bind, Bool.not_true, Bool.not_false,
      Bool.false_eq_true, Bool.true_eq_false, if_false, if_true, Option.pure_def]
          have hx : bitsToNat (natBits 12 (toU64 dod &&& u64mask 12)) = toU64 dod % 2 ^ 12 := by
            rw [bitsToNat_natBits]
            have hm : u64mask 12 = 2 ^ 12 - 1 := by norm_num [u64mask]
            rw [hm, Nat.and_pow_two_sub_one_eq_mod, Nat.mod_mod_of_dvd _ dvd_rfl]
          rw [hx, toDod_range12 h12.1 h12.2, if_neg hz]
          simp only [Option.some.injEq, Prod.mk.injEq, GorillaReaderMV.mk.injEq, BitReader.mk.injEq,
            and_true, true_and]
          omega
        ·

          have hE : encTime dod = true :: true :: true :: true :: natBits 32 (toU64 dod &&& u64mask 32) := by
            unfold encTime
            rw [if_neg hz, if_neg h7, if_neg h9, if_neg h12]
          have hlenE : (encTime dod).length = 36 := by
            rw [hE]; simp [natBits_length]
          rw [hlenE] at hn
          rw [hE] at hdrop
          simp only [List.cons_append] at hdrop
          have hr1 := readBit_at n₀ c₀ bs₀ hdrop (by omega)
          have hdrop1 := drop_cursor_succ _ _ _ _ hdrop
          have hr2 := readBit_at n₀ (c₀ + 1) bs₀ hdrop1 (by omega)
          have hdrop2 := drop_cursor_succ _ _ _ _ hdrop1
          have hr3 := readBit_at n₀ (c₀ + 1 + 1) bs₀ hdrop2 (by omega)
          have hdrop3 := drop_cursor_succ _ _ _ _ hdrop2
          have hr4 := readBit_at n₀ (c₀ + 1 + 1 + 1) bs₀ hdrop3 (by omega)
          have hdrop4 := drop_cursor_succ _ _ _ _ hdrop3
          have hclen : c₀ + 1 + 1 + 1 + 1 ≤ bs₀.length := by
            have h1 := congrArg List.length hdrop4
            simp [natBits_length] at h1
            omega
          have hrp := read_at n₀ (c₀ + 1 + 1 + 1 + 1) 32 bs₀ hdrop4 (natBits_length _ _) hclen (by omega)
          unfold GorillaReaderMV.getNextTime
          rw [hr1]
          simp only [unwrapE, Option.bind_eq_bind, Option.some_bind, Bool.not_true, Bool.not_false,
      Bool.false_eq_true, Bool.true_eq_false, if_false, if_true, Option.pure_def]
          rw [hr2]
          simp only [unwrapE, Option.bind_eq_bind, Option.some_bind, Bool.not_true, Bool.not_false,
      Bool.false_eq_true, Bool.true_eq_false, if_false, if_true, Option.pure_def]
          rw [hr3]
          simp only [unwrapE, Option.bind_eq_bind, Option.some_bind, Bool.not_true, Bool.not_false,
      Bool.false_eq_true, Bool.true_eq_false, if_false, if_true, Option.pure_def]
          rw [hr4]
          simp only [unwrapE, Option.bind_eq_bind, Option.some_bind, Bool.not_true, Bool.not_false,
      Bool.false_eq_true, Bool.true_eq_false, if_false, if_true, Option.pure_def]
          rw [hrp]
          simp only [unwrapE, Option.bind_eq_bind, Option.some_bind, Bool.not_true, Bool.not_false,
      Bool.false_eq_true, Bool.true_eq_false, if_false, if_true, Option.pure_def]
          have hx : bitsToNat (natBits 32 (toU64 dod &&& u64mask 32)) = toU64 dod % 2 ^ 32 := by
            rw [bitsToNat_natBits]
            have hm : u64mask 32 = 2 ^ 32 - 1 := by norm_num [u64mask]
            rw [hm, Nat.and_pow_two_sub_one_eq_mod, Nat.mod_mod_of_dvd _ dvd_rfl]
          rw [hx, toDod_range32 hlo hhi, if_neg hz]
          simp only [Option.some.injEq, Prod.mk.injEq, GorillaReaderMV.mk.injEq, BitReader.mk.injEq,
            and_true, true_and]
          omega

/-! ### Value step simulation (multivariate) -/

/-- Invariant on a predictor window: either the initial `(32, 32)` or a
window installed by an untruncated `11`-encoding. -/
def ZInv (z : Zeros) : Prop :=
  (z.leading = 32 ∧ z.trailing = 32) ∨
  (z.leading ≤ 31 ∧ 1 ≤ z.leading + z.trailing ∧ z.leading + z.trailing ≤ 63)

theorem xor_cancel_left (pv v : Nat) : pv ^^^ (v ^^^ pv) = v := by
  rw [Nat.xor_comm v pv, ← Nat.xor_assoc, Nat.xor_self, Nat.zero_xor]

theorem toI64_toU64 {i : Int} (h1 : -(2 ^ 63) ≤ i) (h2 : i < 2 ^ 63) :
    toI64 (toU64 i) = i := by
  unfold toI64 toU64
  split <;> omega

/-- Encoding one dimension's value and decoding the emitted bits is the
identity, and preserves the window invariant. -/
theorem valueStep_sim (body : BitWriter) (pv v : Nat) (z : Zeros)
    (hgood : goodXor pv z v = true) (hz : ZInv z) (hpv : pv < 2 ^ 64) :
    ∃ (E : Bits) (z' : Zeros),
      appendValuesStep body pv z v = (⟨body.n + E.length, body.bits ++ E⟩, v, z') ∧
      ZInv z' ∧ v < 2 ^ 64 ∧
      (∀ (n c : Nat) (bs rest : Bits),
        bs.drop c = E ++ rest → c + E.length ≤ n → n ≤ bs.length →
        nextValueStep pv z ⟨n, c, bs⟩ = some (v, z', ⟨n, c + E.length, bs⟩)) := by
  have hgx := hgood
  unfold goodXor at hgx
  simp only [Bool.and_eq_true, Bool.or_eq_true, decide_eq_true_eq, beq_iff_eq] at hgx
  obtain ⟨hv64, hcases⟩ := hgx
  obtain ⟨x, hxdef⟩ : ∃ x, x = v ^^^ pv := ⟨_, rfl⟩
  rw [← hxdef] at hcases
  have hx64 : x < 2 ^ 64 := by
    rw [hxdef]
    exact Nat.xor_lt_two_pow hv64 hpv
  by_cases hx0 : x = 0
  · -- zero XOR: one `0` bit, nothing changes
    refine ⟨[false], z, ?_, hz, hv64, ?_⟩
    · unfold appendValuesStep
      rw [← hxdef, if_pos hx0]
      simp [BitWriter.writeBit]
    · intro n c bs rest hdrop hcn hbl
      simp only [List.singleton_append, List.length_singleton] at hdrop hcn ⊢
      have hr1 := readBit_at n c bs hdrop (by omega)
      have hveq : pv = v := by
        have h0 : v ^^^ pv = 0 := by rw [← hxdef]; exact hx0
        have := Nat.xor_eq_zero.mp h0
        omega
      unfold nextValueStep
      rw [hr1]
      simp [unwrapE, hveq]
  · -- non-zero XOR
    have hxpos : 0 < x := Nat.pos_of_ne_zero hx0
    have hdvd : 2 ^ tz64 x ∣ x := tz64_dvd hx0 hx64
    have htzle : 2 ^ tz64 x ≤ x := Nat.le_of_dvd hxpos hdvd
    have hltlz : x < 2 ^ (64 - lz64 x) := lt_two_pow_sub_lz64 hx0 hx64
    have hlz63 : lz64 x ≤ 63 := lz64_le_63 hx0
    have hsum63 : lz64 x + tz64 x ≤ 63 := tz64_lz64_le hx0 hx64
    by_cases hin : z.leading ≤ lz64 x ∧ z.trailing ≤ tz64 x
    · -- inside the window: `10` prefix, window kept
      have hz2 : z.leading ≤ 31 ∧ 1 ≤ z.leading + z.trailing ∧
          z.leading + z.trailing ≤ 63 := by
        rcases hz with ⟨hl32, ht32⟩ | h2
        · exfalso
          have h1 : (2 : Nat) ^ 32 ≤ 2 ^ tz64 x :=
            Nat.pow_le_pow_right (by norm_num) (by omega)
          have h2 : (2 : Nat) ^ (64 - lz64 x) ≤ 2 ^ 32 :=
            Nat.pow_le_pow_right (by norm_num) (by omega)
          omega
        · exact h2
      set nb := 64 - z.leading - z.trailing with hnb
      have hnb1 : 1 ≤ nb := by omega
      have hnb63 : nb ≤ 63 := by omega
      have htw : x >>> z.trailing < 2 ^ nb := by
        apply shiftRight_lt
        have h1 : (2 : Nat) ^ (64 - lz64 x) ≤ 2 ^ (nb + z.trailing) :=
          Nat.pow_le_pow_right (by norm_num) (by omega)
        omega
      have hmask : (x >>> z.trailing) &&& u64mask nb = x >>> z.trailing := by
        have hm : u64mask nb = 2 ^ nb - 1 := by unfold u64mask; rw [if_pos (by omega)]
        rw [hm, Nat.and_pow_two_sub_one_eq_mod, Nat.mod_eq_of_lt htw]
      have hdvdt : 2 ^ z.trailing ∣ x :=
        dvd_trans (pow_dvd_pow 2 hin.2) hdvd
      refine ⟨true :: false :: natBits nb (x >>> z.trailing), z, ?_, hz, hv64, ?_⟩
      · unfold appendValuesStep
        rw [← hxdef, if_neg hx0, if_pos hin]
        simp [BitWriter.writeBit, BitWriter.write, if_pos hin, hmask, natBits_length,
          List.append_assoc, ← hnb]
        omega
      · intro n c bs rest hdrop hcn hbl
        simp only [List.cons_append, List.length_cons, natBits_length] at hdrop hcn ⊢
        have hr1 := readBit_at n c bs hdrop (by omega)
        have hdrop1 := drop_cursor_succ _ _ _ _ hdrop
        have hr2 := readBit_at n (c + 1) bs hdrop1 (by omega)
        have hdrop2 := drop_cursor_succ _ _ _ _ hdrop1
        have hrp := read_at n (c + 1 + 1) nb bs hdrop2 (natBits_length _ _)
          (by omega) (by omega)
        unfold nextValueStep
        rw [hr1]
        simp only [unwrapE, Option.bind_eq_bind, Option.some_bind, Bool.not_true,
          Bool.not_false, Bool.false_eq_true, Bool.true_eq_false, if_false, if_true,
          Option.pure_def]
        rw [hr2]
        simp only [unwrapE, Option.bind_eq_bind, Option.some_bind, Bool.not_true,
          Bool.not_false, Bool.false_eq_true, Bool.true_eq_false, if_false, if_true,
          Option.pure_def]
        rw [← hnb, hrp]
        simp only [unwrapE, Option.bind_eq_bind, Option.some_bind, Option.pure_def,
          Option.some.injEq, Prod.mk.injEq, BitReader.mk.injEq]
        have hxval : bitsToNat (natBits nb (x >>> z.trailing)) = x >>> z.trailing :=
          natBits_of_lt htw
        have hshift : (x >>> z.trailing) <<< z.trailing % 2 ^ 64 = x := by
          rw [shiftRight_shiftLeft_of_dvd hdvdt, Nat.mod_eq_of_lt hx64]
        have hvv : pv ^^^ x = v := by rw [hxdef]; exact xor_cancel_left pv v
        rw [hxval, hshift, hvv]
        refine ⟨rfl, trivial, trivial, by omega, trivial⟩
    · -- outside the window: `11` prefix, window updated
      have hout : lz64 x ≤ 31 ∧ 1 ≤ lz64 x + tz64 x := by
        rcases hcases with (h0 | hinside) | h3
        · exact absurd h0 hx0
        · exact absurd hinside hin
        · exact h3
      obtain ⟨nb, hnb⟩ : ∃ nb, nb = 64 - lz64 x - tz64 x := ⟨_, rfl⟩
      have hnb1 : 1 ≤ nb := by omega
      have hnb63 : nb ≤ 63 := by omega
      have htw : x >>> tz64 x < 2 ^ nb := by
        apply shiftRight_lt
        have h1 : (2 : Nat) ^ (64 - lz64 x) ≤ 2 ^ (nb + tz64 x) :=
          Nat.pow_le_pow_right (by norm_num) (by omega)
        omega
      have hmask5 : lz64 x &&& u64mask 5 = lz64 x := by
        have hm : u64mask 5 = 2 ^ 5 - 1 := by norm_num [u64mask]
        rw [hm, Nat.and_pow_two_sub_one_eq_mod, Nat.mod_eq_of_lt (by omega)]
      have hmask6 : nb &&& u64mask 6 = nb := by
        have hm : u64mask 6 = 2 ^ 6 - 1 := by norm_num [u64mask]
        rw [hm, Nat.and_pow_two_sub_one_eq_mod, Nat.mod_eq_of_lt (by omega)]
      have hmaskp : (x >>> tz64 x) &&& u64mask nb = x >>> tz64 x := by
        have hm : u64mask nb = 2 ^ nb - 1 := by unfold u64mask; rw [if_pos (by omega)]
        rw [hm, Nat.and_pow_two_sub_one_eq_mod, Nat.mod_eq_of_lt htw]
      refine ⟨true :: true :: (natBits 5 (lz64 x) ++ (natBits 6 nb ++
        natBits nb (x >>> tz64 x))), ⟨lz64 x, tz64 x⟩, ?_, ?_, hv64, ?_⟩
      · unfold appendValuesStep
        rw [← hxdef, if_neg hx0, if_neg hin]
        simp [BitWriter.writeBit, BitWriter.write, if_neg hin, hmask5, hmask6, hmaskp,
          natBits_length, List.append_assoc, ← hnb]
        omega
      · refine Or.inr ⟨hout.1, ?_, ?_⟩
        · show 1 ≤ lz64 x + tz64 x
          omega
        · show lz64 x + tz64 x ≤ 63
          omega
      · intro n c bs rest hdrop hcn hbl
        simp only [List.cons_append, List.append_assoc, List.length_cons,
          List.length_append, natBits_length] at hdrop hcn ⊢
        have hr1 := readBit_at n c bs hdrop (by omega)
        have hdrop1 := drop_cursor_succ _ _ _ _ hdrop
        have hr2 := readBit_at n (c + 1) bs hdrop1 (by omega)
        have hdrop2 := drop_cursor_succ _ _ _ _ hdrop1
        have hr3 := read_at n (c + 1 + 1) 5 bs hdrop2 (natBits_length _ _)
          (by omega) (by omega)
        have hdrop3 := drop_cursor_add _ _ _ _ hdrop2
        rw [natBits_length] at hdrop3
        have hr4 := read_at n (c + 1 + 1 + 5) 6 bs hdrop3 (natBits_length _ _)
          (by omega) (by omega)
        have hdrop4 := drop_cursor_add _ _ _ _ hdrop3
        rw [natBits_length] at hdrop4
        have hr5 := read_at n (c + 1 + 1 + 5 + 6) nb bs hdrop4
          (natBits_length _ _) (by omega) (by omega)
        have hv5 : bitsToNat (natBits 5 (lz64 x)) = lz64 x := natBits_of_lt (by omega)
        have hv6 : bitsToNat (natBits 6 nb) = nb := natBits_of_lt (by omega)
        have hvp : bitsToNat (natBits nb (x >>> tz64 x)) = x >>> tz64 x :=
          natBits_of_lt htw
        have htr : 64 - lz64 x - nb = tz64 x := by omega
        have hshift : (x >>> tz64 x) <<< tz64 x % 2 ^ 64 = x := by
          rw [shiftRight_shiftLeft_of_dvd hdvd, Nat.mod_eq_of_lt hx64]
        have hvv : pv ^^^ x = v := by rw [hxdef]; exact xor_cancel_left pv v
        unfold nextValueStep
        rw [hr1]
        simp only [unwrapE, Option.bind_eq_bind, Option.some_bind, Bool.not_true,
          Bool.not_false, Bool.false_eq_true, Bool.true_eq_false, if_false, if_true,
          Option.pure_def]
        rw [hr2]
        simp only [unwrapE, Option.bind_eq_bind, Option.some_bind, Bool.not_true,
          Bool.not_false, Bool.false_eq_true, Bool.true_eq_false, if_false, if_true,
          Option.pure_def]
        rw [hr3]
        simp only [hv5]
        simp only [unwrapE, Option.bind_eq_bind, Option.some_bind, Option.pure_def]
        rw [hr4]
        simp only [hv6]
        simp only [unwrapE, Option.bind_eq_bind, Option.some_bind, Option.pure_def]
        rw [hr5]
        simp only [unwrapE, Option.bind_eq_bind, Option.some_bind, Option.pure_def,
          Option.some.injEq, Prod.mk.injEq, BitReader.mk.injEq, Zeros.mk.injEq]
        simp only [hvp, htr, hshift, hvv, and_true, true_and]
        omega

/-- Encoding a full vector of values and decoding the emitted bits is
the identity, dimension by dimension. -/
theorem valuesLoop_sim : ∀ (vs pvs : List Nat) (zs : List Zeros) (body : BitWriter),
    pvs.length = vs.length → zs.length = vs.length →
    goodValues pvs zs vs = true →
    (∀ z ∈ zs, ZInv z) → (∀ pv ∈ pvs, pv < 2 ^ 64) →
    ∃ (E : Bits) (zsf : List Zeros),
      appendValuesLoop body pvs zs vs = (⟨body.n + E.length, body.bits ++ E⟩, vs, zsf) ∧
      zsf.length = vs.length ∧ (∀ z ∈ zsf, ZInv z) ∧ (∀ v ∈ vs, v < 2 ^ 64) ∧
      (∀ (n c : Nat) (bs rest : Bits),
        bs.drop c = E ++ rest → c + E.length ≤ n → n ≤ bs.length →
        nextValuesLoop pvs zs ⟨n, c, bs⟩ = some (vs, zsf, ⟨n, c + E.length, bs⟩)) := by
  intro vs
  induction vs with
  | nil =>
    intro pvs zs body hl1 hl2 hg hz hpv
    have hpvs : pvs = [] := List.eq_nil_of_length_eq_zero (by simpa using hl1)
    have hzs : zs = [] := List.eq_nil_of_length_eq_zero (by simpa using hl2)
    subst hpvs hzs
    refine ⟨[], [], ?_, rfl, by simp, by simp, ?_⟩
    · simp [appendValuesLoop]
    · intro n c bs rest hdrop hcn hbl
      simp [nextValuesLoop]
  | cons v vs ih =>
    intro pvs zs body hl1 hl2 hg hz hpv
    obtain ⟨pv, pvs, rfl⟩ : ∃ a l, pvs = a :: l := by
      cases pvs with
      | nil => simp at hl1
      | cons a l => exact ⟨a, l, rfl⟩
    obtain ⟨z, zs, rfl⟩ : ∃ a l, zs = a :: l := by
      cases zs with
      | nil => simp at hl2
      | cons a l => exact ⟨a, l, rfl⟩
    have hg1 : goodXor pv z v = true ∧ goodValues pvs zs vs = true := by
      simpa [goodValues, Bool.and_eq_true] using hg
    obtain ⟨E₁, z₁, hstep, hz1, hv64, hdec1⟩ :=
      valueStep_sim body pv v z hg1.1 (hz z (by simp)) (hpv pv (by simp))
    obtain ⟨E₂, zs₂, hloop, hlz2, hz2, hv2, hdec2⟩ :=
      ih pvs zs ⟨body.n + E₁.length, body.bits ++ E₁⟩ (by simpa using hl1)
        (by simpa using hl2) hg1.2 (fun a ha => hz a (by simp [ha]))
        (fun a ha => hpv a (by simp [ha]))
    refine ⟨E₁ ++ E₂, z₁ :: zs₂, ?_, by simpa using hlz2, ?_, ?_, ?_⟩
    · unfold appendValuesLoop
      rw [hstep]
      simp only [hloop]
      simp [List.append_assoc]
      omega
    · intro a ha
      rcases List.mem_cons.mp ha with h | h
      · subst h; exact hz1
      · exact hz2 a h
    · intro a ha
      rcases List.mem_cons.mp ha with h | h
      · subst h; exact hv64
      · exact hv2 a h
    · intro n c bs rest hdrop hcn hbl
      rw [List.append_assoc] at hdrop
      have hd1 := hdec1 n c bs (E₂ ++ rest) hdrop
        (by simp [List.length_append] at hcn ⊢; omega) hbl
      have hdrop2 : bs.drop (c + E₁.length) = E₂ ++ rest := by
        have := drop_cursor_add bs c E₁ (E₂ ++ rest) hdrop
        exact this
      have hd2 := hdec2 n (c + E₁.length) bs rest hdrop2
        (by simp [List.length_append] at hcn ⊢; omega) hbl
      unfold nextValuesLoop
      rw [hd1]
      simp only [Option.bind_eq_bind, Option.some_bind, Option.pure_def]
      rw [hd2]
      simp only [Option.bind_eq_bind, Option.some_bind, Option.some.injEq, Prod.mk.injEq,
        BitReader.mk.injEq, Option.pure_def]
      simp [List.length_append]
      omega

/-- Invariant of multivariate writer states reachable through the API. -/
def WInv (w : GorillaWriterMV) : Prop :=
  w.prev_value.length = w.dim ∧ w.prev_zeros.length = w.dim ∧ w.prev_delta ≤ 16384 ∧
  (∀ z ∈ w.prev_zeros, ZInv z) ∧ (∀ pv ∈ w.prev_value, pv < 2 ^ 64) ∧
  w.body.bits.length = w.body.n

/-- `get_next_values` on an explicit reader record factors through
`nextValuesLoop`, keeping `prev_entry.time` and `prev_diff` untouched. -/
theorem getNextValues_eq (d : Nat) (ent : MVEntry) (pt : Int) (pv : List Nat)
    (pdf : Int) (pz : List Zeros) (rd : BitReader)
    (vs : List Nat) (zs : List Zeros) (rd' : BitReader)
    (h : nextValuesLoop pv pz rd = some (vs, zs, rd')) :
    (GorillaReaderMV.mk d ent ⟨pt, pv⟩ pdf pz rd).getNextValues
      = some (vs, GorillaReaderMV.mk d ent ⟨pt, vs⟩ pdf zs rd') := by
  unfold GorillaReaderMV.getNextValues
  simp only
  rw [h]
  simp

/-- Appending one well-behaved entry and decoding the emitted bits with
`get_next_time` followed by `get_next_values` reproduces the entry and
keeps writer and reader in lockstep. -/
theorem appendEntry_sim (w : GorillaWriterMV) (e : MVEntry)
    (hstep : goodStep w e = true) (hW : WInv w) :
    ∃ (E : Bits) (w1 : GorillaWriterMV),
      w.appendEntry e = (.ok (), w1) ∧ WInv w1 ∧
      w1.dim = w.dim ∧ w1.prev_ts = e.time ∧ w1.prev_value = e.values ∧
      w1.prev_delta = (e.time - w.prev_ts).toNat ∧
      w1.body.n = w.body.n + E.length ∧ w1.body.bits = w.body.bits ++ E ∧
      (∀ (n c : Nat) (bs rest : Bits) (ent : MVEntry),
        bs.drop c = E ++ rest → c + E.length ≤ n → n ≤ bs.length →
        ((GorillaReaderMV.mk w.dim ent ⟨w.prev_ts, w.prev_value⟩ (w.prev_delta : Int)
            w.prev_zeros ⟨n, c, bs⟩).getNextTime.bind (fun p =>
          p.2.getNextValues.bind (fun q => some ((p.1, q.1), q.2))))
        = some ((e.time, e.values),
            GorillaReaderMV.mk w.dim ent ⟨e.time, e.values⟩ (w1.prev_delta : Int)
              w1.prev_zeros ⟨n, c + E.length, bs⟩)) := by
  have hgs := hstep
  unfold goodStep at hgs
  simp only [Bool.and_eq_true, Bool.or_eq_true, decide_eq_true_eq] at hgs
  obtain ⟨⟨⟨⟨hdim, h0⟩, h16⟩, hdodz⟩, hgv⟩ := hgs
  obtain ⟨hlen1, hlen2, hpd, hzinv, hpv64, hblen⟩ := hW
  have henc := appendTimeMV_ok w e.time h0 h16 hpd
  obtain ⟨Ev, zsf, hloop, hlzf, hzf, hvf, hdecv⟩ :=
    valuesLoop_sim e.values w.prev_value w.prev_zeros
      ⟨w.body.n + (encTime (e.time - w.prev_ts - (w.prev_delta : Int))).length,
       w.body.bits ++ encTime (e.time - w.prev_ts - (w.prev_delta : Int))⟩
      (by omega) (by omega) hgv hzinv hpv64
  set dod : Int := e.time - w.prev_ts - (w.prev_delta : Int) with hdod
  have hdlo : -(2 ^ 31) ≤ dod := by omega
  have hdhi : dod ≤ 2 ^ 31 - 1 := by omega
  refine ⟨encTime dod ++ Ev,
    ⟨w.dim, w.header, e.time, (e.time - w.prev_ts).toNat, e.values, zsf,
      ⟨w.body.n + (encTime dod).length + Ev.length, (w.body.bits ++ encTime dod) ++ Ev⟩⟩,
    ?_, ?_, rfl, rfl, rfl, rfl, ?_, ?_, ?_⟩
  · -- the append itself
    unfold GorillaWriterMV.appendEntry GorillaWriterMV.validateValues
    rw [if_neg (by omega)]
    simp only []
    rw [henc]
    unfold GorillaWriterMV.appendValues GorillaWriterMV.validateValues
    simp only []
    rw [if_neg (by omega)]
    simp only [hloop]
  · -- invariant preservation
    refine ⟨?_, ?_, ?_, hzf, hvf, ?_⟩
    · show e.values.length = w.dim
      omega
    · show zsf.length = w.dim
      omega
    · show (e.time - w.prev_ts).toNat ≤ 16384
      omega
    · show ((w.body.bits ++ encTime dod) ++ Ev).length
        = w.body.n + (encTime dod).length + Ev.length
      simp [List.length_append]
      omega
  · show w.body.n + (encTime dod).length + Ev.length
      = w.body.n + (encTime dod ++ Ev).length
    simp [List.length_append]
    omega
  · show (w.body.bits ++ encTime dod) ++ Ev = w.body.bits ++ (encTime dod ++ Ev)
    simp [List.append_assoc]
  · -- decode simulation
    intro n c bs rest ent hdrop hcn hbl
    rw [List.append_assoc] at hdrop
    simp only [List.length_append] at hcn
    have hts := getNextTimeMV_spec
      (GorillaReaderMV.mk w.dim ent ⟨w.prev_ts, w.prev_value⟩ (w.prev_delta : Int)
        w.prev_zeros ⟨n, c, bs⟩) dod (Ev ++ rest) hdlo hdhi (by simpa using hdrop)
      (by simp; omega)
    have htime : w.prev_ts + (dod + (w.prev_delta : Int)) = e.time := by omega
    have hdropv : bs.drop (c + (encTime dod).length) = Ev ++ rest :=
      drop_cursor_add _ _ _ _ hdrop
    have hdl := hdecv n (c + (encTime dod).length) bs rest hdropv (by omega) hbl
    by_cases hz : dod = 0
    · -- zero delta-of-delta: the reader state is stale, but `goodStep`
      -- makes the stale state coincide with the updated one
      have hteq : e.time = w.prev_ts := by
        rcases hdodz with h | h
        · exact absurd hz h
        · exact h
      have hpd0 : w.prev_delta = 0 := by omega
      have hlen0 : (encTime dod).length = 1 := by
        rw [hz]
        simp [encTime]
      rw [hlen0] at hdl
      rw [hts, if_pos hz]
      simp only [Option.bind_eq_bind, Option.some_bind]
      rw [getNextValues_eq w.dim ent w.prev_ts w.prev_value ((w.prev_delta : Nat) : Int)
        w.prev_zeros ⟨n, c + 1, bs⟩ e.values zsf ⟨n, c + 1 + Ev.length, bs⟩ hdl]
      simp only [Option.some_bind, Option.some.injEq, Prod.mk.injEq,
        GorillaReaderMV.mk.injEq, BitReader.mk.injEq, MVEntry.mk.injEq,
        List.length_append, and_true, true_and]
      omega
    · rw [hts, if_neg hz]
      simp only [Option.bind_eq_bind, Option.some_bind]
      rw [getNextValues_eq w.dim ent (w.prev_ts + (dod + (w.prev_delta : Int))) w.prev_value
        (dod + (w.prev_delta : Int)) w.prev_zeros ⟨n, c + (encTime dod).length, bs⟩
        e.values zsf ⟨n, c + (encTime dod).length + Ev.length, bs⟩ hdl]
      simp only [Option.some_bind, Option.some.injEq, Prod.mk.injEq,
        GorillaReaderMV.mk.injEq, BitReader.mk.injEq, MVEntry.mk.injEq,
        List.length_append, and_true, true_and]
      omega


/-- Main simulation: a well-behaved run compresses successfully, and
decoding the emitted bit string with `retrieveLoop` reproduces the run. -/
theorem retrieve_sim (es : List MVEntry) (w : GorillaWriterMV)
    (hrun : goodRun w es = true) (hW : WInv w) :
    ∃ (E : Bits) (w1 : GorillaWriterMV),
      compressLoop w es = some w1 ∧ WInv w1 ∧ w1.dim = w.dim ∧
      w1.body.n = w.body.n + E.length ∧ w1.body.bits = w.body.bits ++ E ∧
      (∀ (n c : Nat) (bs rest : Bits) (ent : MVEntry),
        bs.drop c = E ++ rest → c + E.length ≤ n → n ≤ bs.length →
        retrieveLoop (GorillaReaderMV.mk w.dim ent ⟨w.prev_ts, w.prev_value⟩
            (w.prev_delta : Int) w.prev_zeros ⟨n, c, bs⟩) es.length = some es) := by
  induction es generalizing w with
  | nil =>
    refine ⟨[], w, rfl, hW, rfl, by simp, by simp, ?_⟩
    intro n c bs rest ent _ _ _
    rfl
  | cons e es ih =>
    obtain ⟨et, ev⟩ := e
    unfold goodRun at hrun
    rw [Bool.and_eq_true] at hrun
    obtain ⟨hstep, hrest⟩ := hrun
    obtain ⟨E1, w1, hap, hW1, hd1, hts1, hv1, hpd1, hn1, hb1, hdec1⟩ :=
      appendEntry_sim w ⟨et, ev⟩ hstep hW
    rw [hap] at hrest
    obtain ⟨E2, w2, hcl, hW2, hd2, hn2, hb2, hdec2⟩ := ih w1 hrest hW1
    refine ⟨E1 ++ E2, w2, ?_, hW2, ?_, ?_, ?_, ?_⟩
    · unfold compressLoop
      rw [hap]
      exact hcl
    · rw [hd2, hd1]
    · rw [hn2, hn1]
      simp [List.length_append]
      omega
    · rw [hb2, hb1]
      simp [List.append_assoc]
    · intro n c bs rest ent hdrop hcn hbl
      rw [List.append_assoc] at hdrop
      simp only [List.length_append] at hcn
      have hone := hdec1 n c bs (E2 ++ rest) ent hdrop (by omega) hbl
      show retrieveLoop _ (es.length + 1) = _
      rw [retrieveLoop]
      rcases hX : (GorillaReaderMV.mk w.dim ent ⟨w.prev_ts, w.prev_value⟩
          (w.prev_delta : Int) w.prev_zeros ⟨n, c, bs⟩).getNextTime with _ | p
      · rw [hX] at hone
        simp at hone
      obtain ⟨ts, r1⟩ := p
      rw [hX] at hone
      simp only [Option.bind_eq_bind, Option.some_bind] at hone ⊢
      rcases hQ : r1.getNextValues with _ | q
      · rw [hQ] at hone
        simp at hone
      obtain ⟨vs, r2⟩ := q
      rw [hQ] at hone
      simp only [Option.bind_eq_bind, Option.some_bind, Option.some.injEq,
        Prod.mk.injEq] at hone ⊢
      obtain ⟨⟨hts', hvs'⟩, hr2⟩ := hone
      have hdropr : bs.drop (c + E1.length) = E2 ++ rest :=
        drop_cursor_add _ _ _ _ hdrop
      have het : w1.prev_ts = et := hts1
      have hev : w1.prev_value = ev := hv1
      have htail := hdec2 n (c + E1.length) bs rest ent hdropr (by omega) hbl
      rw [hd1, het, hev] at htail
      rw [hr2, htail]
      simp only [Option.some_bind, Option.some.injEq, List.cons.injEq,
        MVEntry.mk.injEq, and_true, true_and]
      exact ⟨hts', hvs'⟩

/-- C1 (amended): the codec round-trip
`retrieve_values (compress_values S header D) D (len S) = S` holds for
every well-behaved run (`goodRun`): timestamps start at or after the
header, deltas lie in `[0, 16384]`, every zero delta-of-delta comes from
a repeated timestamp, and every value XOR is losslessly encodable. -/
theorem C1_vector_roundtrip_amended (es : List MVEntry) (header : Int) (dim : Nat)
    (h1 : -(2 ^ 63) ≤ header) (h2 : header < 2 ^ 63)
    (hrun : goodRun (GorillaWriterMV.withVec header dim) es = true) :
    roundTrip es header dim es.length = some es := by
  have hbodyb : (GorillaWriterMV.withVec header dim).body.bits
      = natBits 64 (toU64 header &&& u64mask 64) := by
    simp [GorillaWriterMV.withVec, BitWriter.write, BitWriter.new]
  have hbodyn : (GorillaWriterMV.withVec header dim).body.n = 64 := by
    simp [GorillaWriterMV.withVec, BitWriter.write, BitWriter.new]
  have hW : WInv (GorillaWriterMV.withVec header dim) := by
    refine ⟨by simp [GorillaWriterMV.withVec],
      by simp [GorillaWriterMV.withVec],
      by simp [GorillaWriterMV.withVec], ?_, ?_, ?_⟩
    · intro z hz
      rw [GorillaWriterMV.withVec] at hz
      simp only [List.mem_replicate] at hz
      rw [hz.2]
      exact Or.inl ⟨rfl, rfl⟩
    · intro pv hpv
      rw [GorillaWriterMV.withVec] at hpv
      simp only [List.mem_replicate] at hpv
      rw [hpv.2]
      norm_num
    · rw [hbodyb, hbodyn, natBits_length]
  obtain ⟨E, w1, hcl, hW1, hdim1, hn1, hb1, hdec⟩ := retrieve_sim es _ hrun hW
  have hcv : compressValues es header dim = some (GorillaWriterMV.close w1) := by
    unfold compressValues
    rw [hcl]
    rfl
  have hu : toU64 header < 2 ^ 64 := by
    unfold toU64
    omega
  have hm : u64mask 64 = 2 ^ 64 - 1 := by
    rfl
  have hX : toU64 header &&& u64mask 64 = toU64 header := by
    rw [hm, Nat.and_pow_two_sub_one_eq_mod]
    exact Nat.mod_eq_of_lt hu
  have hdropHdr : ∀ (l2 : Bits),
      (natBits 64 (toU64 header &&& u64mask 64) ++ l2).drop 64 = l2 := by
    intro l2
    have h := List.drop_left (natBits 64 (toU64 header &&& u64mask 64)) l2
    rwa [natBits_length] at h
  have hdropE : (w1.body.bits ++ natBits (fillBits w1.body.n) 0).drop 64
      = E ++ natBits (fillBits w1.body.n) 0 := by
    rw [hb1, hbodyb, List.append_assoc, hdropHdr]
  have hblen1 : w1.body.bits.length = w1.body.n := hW1.2.2.2.2.2
  have hread := read_at w1.body.n 0 64
    (w1.body.bits ++ natBits (fillBits w1.body.n) 0)
    (by
      rw [List.drop_zero, hb1, hbodyb, List.append_assoc])
    (natBits_length _ _) (Nat.zero_le _) (by omega)
  have hhdr : toI64 (bitsToNat (natBits 64 (toU64 header &&& u64mask 64))) = header := by
    rw [bitsToNat_natBits, hX, Nat.mod_eq_of_lt hu]
    exact toI64_toU64 h1 h2
  have hfb : GorillaReaderMV.fromBlock (GorillaWriterMV.close w1) dim
      = some ⟨dim, ⟨header, List.replicate dim 0⟩, ⟨header, List.replicate dim 0⟩, 0,
          List.replicate dim ⟨32, 32⟩,
          ⟨w1.body.n, 64, w1.body.bits ++ natBits (fillBits w1.body.n) 0⟩⟩ := by
    unfold GorillaReaderMV.fromBlock GorillaWriterMV.close BitWriter.close BitReader.new
    simp only
    rw [hread]
    simp [unwrapE, hhdr]
  unfold roundTrip
  rw [hcv]
  show retrieveValues (GorillaWriterMV.close w1) dim es.length = some es
  unfold retrieveValues
  rw [hfb]
  simp only [Option.bind_eq_bind, Option.some_bind]
  have happ := hdec w1.body.n 64 (w1.body.bits ++ natBits (fillBits w1.body.n) 0)
    (natBits (fillBits w1.body.n) 0) ⟨header, List.replicate dim 0⟩
    hdropE (by omega) (by simp [List.length_append]; omega)
  rw [GorillaWriterMV.withVec] at happ
  simp only [Nat.cast_zero] at happ
  exact happ

/-- C1 (counterexample to the spec as stated): two runs that satisfy the
claim's hypotheses (first timestamp at or after the header, non-decreasing
timestamps, deltas at most 16384) but do not round-trip. First, a periodic
sequence with constant delta 10: the reader's zero delta-of-delta branch
returns without updating `prev_entry`/`prev_diff`, so the third timestamp
decodes to 20 instead of 30. Second, a single sample with value bits 1:
the leading-zero count 63 is truncated to 31 by the 5-bit window write,
and the value decodes as `2^32` instead of `1`. -/
theorem C1_vector_roundtrip_counterexample :
    roundTrip [⟨10, [0]⟩, ⟨20, [0]⟩, ⟨30, [0]⟩] 0 1 3
        = some [⟨10, [0]⟩, ⟨20, [0]⟩, ⟨20, [0]⟩] ∧
    roundTrip [⟨10, [0]⟩, ⟨20, [0]⟩, ⟨30, [0]⟩] 0 1 3
        ≠ some [⟨10, [0]⟩, ⟨20, [0]⟩, ⟨30, [0]⟩] ∧
    roundTrip [⟨10, [1]⟩] 0 1 1 = some [⟨10, [4294967296]⟩] ∧
    roundTrip [⟨10, [1]⟩] 0 1 1 ≠ some [⟨10, [1]⟩] := by
  decide

/-- Witness for C1 (amended) at a concrete well-behaved run. -/
theorem C1_vector_roundtrip_amended_witness :
    (-(2 ^ 63) : Int) ≤ 0 ∧ (0 : Int) < 2 ^ 63 ∧
    goodRun (GorillaWriterMV.withVec 0 1) [⟨5, [4294967296]⟩] = true ∧
    roundTrip [⟨5, [4294967296]⟩] 0 1 1 = some [⟨5, [4294967296]⟩] :=
  ⟨by norm_num, by norm_num, by decide,
    C1_vector_roundtrip_amended [⟨5, [4294967296]⟩] 0 1
      (by norm_num) (by norm_num) (by decide)⟩

/-- C10: whenever `append_entry` returns an error, the writer is left
exactly as it was before the call (no bits appended, no state fields
changed), and the error is one of the three validation errors, each
implied by its cause: `BadDimensionError` by a wrong-length vector,
`AppendOrderError` by a timestamp before the previous one, and
`AppendDurationError` by a delta over 16384 seconds. -/
theorem C10_append_entry_error_atomic (w : GorillaWriterMV) (e : MVEntry)
    (err : GError) (h : (w.appendEntry e).1 = .error err) :
    (w.appendEntry e).2 = w ∧
    ((err = .badDimensionError ∧ e.values.length ≠ w.dim) ∨
     (err = .appendOrderError ∧ e.time - w.prev_ts < 0) ∨
     (err = .appendDurationError ∧ 16384 < e.time - w.prev_ts)) := by
  by_cases hdim : e.values.length ≠ w.dim
  · have hres : w.appendEntry e = (.error .badDimensionError, w) := by
      unfold GorillaWriterMV.appendEntry GorillaWriterMV.validateValues
      rw [if_pos hdim]
    rw [hres] at h
    simp only [Except.error.injEq] at h
    refine ⟨by rw [hres], Or.inl ⟨h.symm, hdim⟩⟩
  · by_cases hlt : e.time - w.prev_ts < 0
    · have hA : w.appendTime e.time = (.error .appendOrderError, w) := by
        unfold GorillaWriterMV.appendTime GorillaWriterMV.validateTimestamp
        simp only []
        rw [if_pos hlt]
      have hres : w.appendEntry e = (.error .appendOrderError, w) := by
        unfold GorillaWriterMV.appendEntry GorillaWriterMV.validateValues
        rw [if_neg hdim, hA]
      rw [hres] at h
      simp only [Except.error.injEq] at h
      refine ⟨by rw [hres], Or.inr (Or.inl ⟨h.symm, hlt⟩)⟩
    · by_cases hgt : (16384 : Int) < e.time - w.prev_ts
      · have hA : w.appendTime e.time = (.error .appendDurationError, w) := by
          unfold GorillaWriterMV.appendTime GorillaWriterMV.validateTimestamp
          simp only []
          rw [if_neg hlt, if_pos hgt]
        have hres : w.appendEntry e = (.error .appendDurationError, w) := by
          unfold GorillaWriterMV.appendEntry GorillaWriterMV.validateValues
          rw [if_neg hdim, hA]
        rw [hres] at h
        simp only [Except.error.injEq] at h
        refine ⟨by rw [hres], Or.inr (Or.inr ⟨h.symm, hgt⟩)⟩
      · exfalso
        have hA : ∃ w1, w.appendTime e.time = (.ok (), w1) ∧ w1.dim = w.dim := by
          unfold GorillaWriterMV.appendTime GorillaWriterMV.validateTimestamp
          simp only []
          rw [if_neg hlt, if_neg hgt]
          simp only []
          split
          · exact ⟨_, rfl, rfl⟩
          · split
            · exact ⟨_, rfl, rfl⟩
            · split
              · exact ⟨_, rfl, rfl⟩
              · split
                · exact ⟨_, rfl, rfl⟩
                · exact ⟨_, rfl, rfl⟩
        obtain ⟨w1, hA, hd1⟩ := hA
        have hV : ∃ w2, w1.appendValues e.values = (.ok (), w2) := by
          unfold GorillaWriterMV.appendValues GorillaWriterMV.validateValues
          rw [if_neg (by rw [hd1]; exact hdim)]
          exact ⟨_, rfl⟩
        obtain ⟨w2, hV⟩ := hV
        have hres : w.appendEntry e = (.ok (), w2) := by
          unfold GorillaWriterMV.appendEntry GorillaWriterMV.validateValues
          rw [if_neg hdim, hA]
          simp only []
          rw [hV]
        rw [hres] at h
        simp at h

/-- Witness for C10: appending an out-of-order timestamp to a fresh
writer fails with `AppendOrderError` and leaves the writer unchanged. -/
theorem C10_append_entry_error_atomic_witness :
    ((GorillaWriterMV.withVec 0 1).appendEntry ⟨-5, [0]⟩).1
        = .error .appendOrderError ∧
    ((GorillaWriterMV.withVec 0 1).appendEntry ⟨-5, [0]⟩).2
        = GorillaWriterMV.withVec 0 1 :=
  ⟨by rfl,
    (C10_append_entry_error_atomic (GorillaWriterMV.withVec 0 1) ⟨-5, [0]⟩
      .appendOrderError (by rfl)).1⟩

/-! ### Storage layer: byte-level primitives (`byteorder` little-endian) -/

/-- File contents and strings are byte lists. -/
abbrev Bytes := List Nat

/-- `write_u32::<LittleEndian>` of a value cast `as u32`: four bytes,
least significant first; the cast wraps mod `2^32`. -/
def u32le (v : Nat) : Bytes :=
  [v % 256, v / 256 % 256, v / 65536 % 256, v / 16777216 % 256]

/-- `read_u8` at a file position: the byte there, or an error at EOF. -/
def readU8 (bs : Bytes) (pos : Nat) : Option Nat := bs[pos]?

/-- `read_u32::<LittleEndian>` at a file position: four bytes, assembled
least significant first; an error if fewer than four bytes remain. -/
def readU32 (bs : Bytes) (pos : Nat) : Option Nat :=
  match (bs.drop pos).take 4 with
  | [b0, b1, b2, b3] => some (b0 + 256 * b1 + 65536 * b2 + 16777216 * b3)
  | _ => none

/-- `read_exact` into a buffer of `count` bytes at a file position. -/
def readBytes (bs : Bytes) (pos count : Nat) : Option Bytes :=
  if pos + count ≤ bs.length then some ((bs.drop pos).take count) else none

/-! ### `src/storage/sstable.rs` -/

/-- The in-memory state of `SSTableFileBuilder`: the bytes of the data
section written so far, the index entries `(key, offset)` accumulated by
`add`, and the running `bytes_written` counter. -/
structure SSTableFileBuilder where
  data : Bytes
  index : List (Bytes × Nat)
  bytes_written : Nat
deriving Repr, DecidableEq

def SSTableFileBuilder.new : SSTableFileBuilder := ⟨[], [], 0⟩

/-- Model of `SSTableFileBuilder::add`: record the tuple location
(`bytes_written as u32`), then write `keylen | key | vallen | val`. -/
def SSTableFileBuilder.add (b : SSTableFileBuilder) (key val : Bytes) :
    SSTableFileBuilder :=
  { data := b.data ++ (u32le key.length ++ (key ++ (u32le val.length ++ val)))
    index := b.index ++ [(key, b.bytes_written % 2 ^ 32)]
    bytes_written := b.bytes_written + 4 + key.length + 4 + val.length }

/-- The index-section bytes written by `commit`:
`keylen(u32) | key | offset(u32)` per entry. -/
def idxBytes (l : List (Bytes × Nat)) : Bytes :=
  l.flatMap fun kv => u32le kv.1.length ++ (kv.1 ++ u32le kv.2)

/-- Model of `SSTableFileBuilder::commit`: the full file contents —
data section, index section, then the footer
`num_entries(u32) | index_loc(u32)`. -/
def SSTableFileBuilder.commit (b : SSTableFileBuilder) : Bytes :=
  b.data ++ idxBytes b.index ++ u32le b.index.length ++ u32le b.bytes_written

/-- `SSTableFileReader` as loaded by `open`: the entry count and the
the index `HashMap` represented as its insertion sequence. -/
structure SSTableFileReader where
  num_entries : Nat
  index : List (Bytes × Nat)
deriving Repr, DecidableEq

/-- `HashMap::get` over the insertion sequence: the last insert for a
key wins. -/
def hashGet (l : List (Bytes × Nat)) (k : Bytes) : Option Nat :=
  (l.reverse.find? fun kv => kv.1 == k).map fun kv => kv.2

/-- The `for _ in 0..num_entries` index-loading loop of
`SSTableFileReader::open`: `keylen(u32) | key | offset(u32)` per entry. -/
def readIndexLoop (bs : Bytes) : Nat → Nat → Option (List (Bytes × Nat))
  | _, 0 => some []
  | pos, n + 1 => do
    let klen ← readU32 bs pos
    let key ← readBytes bs (pos + 4) klen
    let off ← readU32 bs (pos + 4 + klen)
    let rest ← readIndexLoop bs (pos + 4 + klen + 4) n
    some ((key, off) :: rest)

/-- Model of `SSTableFileReader::open`: seek to `End(-8)` (an error on a
shorter file), read the footer, then load the index section. -/
def SSTableFileReader.openFile (bs : Bytes) : Option SSTableFileReader :=
  if bs.length < 8 then none
  else do
    let ne ← readU32 bs (bs.length - 8)
    let iloc ← readU32 bs (bs.length - 4)
    let idx ← readIndexLoop bs iloc ne
    some ⟨ne, idx⟩

/-- Model of `SSTableFileReader::get`: look the key up in the index
`HashMap`; on a hit seek to the recorded offset, skip
`keylen(u32) | key`, and read `vallen(u32) | val`. The outer `Option` is
the `io::Result`, the inner one the lookup result. -/
def SSTableFileReader.get (r : SSTableFileReader) (bs : Bytes) (key : Bytes) :
    Option (Option Bytes) :=
  match hashGet r.index key with
  | none => some none
  | some loc => do
    let klen ← readU32 bs loc
    let vlen ← readU32 bs (loc + 4 + klen)
    let val ← readBytes bs (loc + 4 + klen + 4) vlen
    some (some val)

/-- Feeding a list of pairs through `add` in order. -/
def buildLoop (b : SSTableFileBuilder) : List (Bytes × Bytes) → SSTableFileBuilder
  | [] => b
  | (k, v) :: ps => buildLoop (b.add k v) ps

/-- The data-section bytes one `add` writes. -/
def entryBytes (kv : Bytes × Bytes) : Bytes :=
  u32le kv.1.length ++ (kv.1 ++ (u32le kv.2.length ++ kv.2))

/-- The number of data-section bytes one `add` writes. -/
def entrySize (kv : Bytes × Bytes) : Nat := 8 + kv.1.length + kv.2.length

def listSize (ps : List (Bytes × Bytes)) : Nat := (ps.map entrySize).sum

/-- The index entries `add` accumulates for pairs written starting at
data-section offset `s` (each offset truncated `as u32`). -/
def offsetsFrom (s : Nat) : List (Bytes × Bytes) → List (Bytes × Nat)
  | [] => []
  | kv :: ps => (kv.1, s % 2 ^ 32) :: offsetsFrom (s + entrySize kv) ps

theorem dropBytes_add (bs : Bytes) (c : Nat) (pre rest : Bytes)
    (h : bs.drop c = pre ++ rest) : bs.drop (c + pre.length) = rest := by
  rw [← List.drop_drop, h, List.drop_left]

theorem u32le_length (v : Nat) : (u32le v).length = 4 := rfl

theorem readU32_of_drop (bs : Bytes) (pos v : Nat) (rest : Bytes)
    (h : bs.drop pos = u32le v ++ rest) : readU32 bs pos = some (v % 2 ^ 32) := by
  unfold readU32
  rw [h]
  show some (v % 256 + 256 * (v / 256 % 256) + 65536 * (v / 65536 % 256)
    + 16777216 * (v / 16777216 % 256)) = some (v % 2 ^ 32)
  congr 1
  omega

theorem readBytes_of_drop (bs : Bytes) (pos count : Nat) (pre rest : Bytes)
    (h : bs.drop pos = pre ++ rest) (hc : pre.length = count)
    (hpos : pos ≤ bs.length) : readBytes bs pos count = some pre := by
  unfold readBytes
  have hlen : (bs.drop pos).length = bs.length - pos := List.length_drop _ _
  rw [h] at hlen
  simp only [List.length_append] at hlen
  rw [if_pos (by omega), h, ← hc, List.take_left]

theorem entryBytes_length (kv : Bytes × Bytes) :
    (entryBytes kv).length = entrySize kv := by
  simp [entryBytes, entrySize, u32le]
  omega

theorem flatMap_entryBytes_length (ps : List (Bytes × Bytes)) :
    (ps.flatMap entryBytes).length = listSize ps := by
  induction ps with
  | nil => rfl
  | cons kv ps ih =>
    simp only [List.flatMap_cons, List.length_append, ih, listSize, List.map_cons,
      List.sum_cons, entryBytes_length]

theorem buildLoop_closed (ps : List (Bytes × Bytes)) (b : SSTableFileBuilder) :
    buildLoop b ps = ⟨b.data ++ ps.flatMap entryBytes,
      b.index ++ offsetsFrom b.bytes_written ps,
      b.bytes_written + listSize ps⟩ := by
  induction ps generalizing b with
  | nil =>
    simp [buildLoop, offsetsFrom, listSize]
  | cons kv ps ih =>
    obtain ⟨k, v⟩ := kv
    show buildLoop (b.add k v) ps = _
    rw [ih]
    unfold SSTableFileBuilder.add
    have harg : b.bytes_written + 4 + k.length + 4 + v.length
        = b.bytes_written + entrySize (k, v) := by
      simp only [entrySize]
      omega
    simp only [List.flatMap_cons, offsetsFrom, listSize, List.map_cons, List.sum_cons,
      SSTableFileBuilder.mk.injEq, harg]
    refine ⟨?_, ?_, ?_⟩
    · rw [List.append_assoc]
      rfl
    · rw [List.append_assoc, List.singleton_append]
    · omega

theorem offsetsFrom_map_fst (s : Nat) (ps : List (Bytes × Bytes)) :
    (offsetsFrom s ps).map Prod.fst = ps.map Prod.fst := by
  induction ps generalizing s with
  | nil => rfl
  | cons kv ps ih =>
    simp [offsetsFrom, ih]

theorem offsetsFrom_off_lt (s : Nat) (ps : List (Bytes × Bytes)) :
    ∀ kv ∈ offsetsFrom s ps, kv.2 < 2 ^ 32 := by
  induction ps generalizing s with
  | nil =>
    intro kv h
    cases h
  | cons kv0 ps ih =>
    intro kv h
    rcases List.mem_cons.mp h with h | h
    · rw [h]
      exact Nat.mod_lt _ (by norm_num)
    · exact ih _ kv h

theorem entrySize_le_listSize (ps : List (Bytes × Bytes)) (kv : Bytes × Bytes)
    (h : kv ∈ ps) : entrySize kv ≤ listSize ps := by
  induction ps with
  | nil => cases h
  | cons kv0 ps ih =>
    rcases List.mem_cons.mp h with h | h
    · rw [h]
      simp only [listSize, List.map_cons, List.sum_cons]
      omega
    · have := ih h
      simp only [listSize, List.map_cons, List.sum_cons] at this ⊢
      omega

theorem offsetsFrom_spec (ps : List (Bytes × Bytes)) (s : Nat) (G tail0 : Bytes)
    (hdrop : G.drop s = ps.flatMap entryBytes ++ tail0)
    (hs : s ≤ G.length) (hfit : s + listSize ps < 2 ^ 32) :
    ∀ kv ∈ ps, ∃ off, (kv.1, off) ∈ offsetsFrom s ps ∧ off ≤ G.length ∧
      ∃ tail, G.drop off = entryBytes kv ++ tail := by
  induction ps generalizing s tail0 with
  | nil =>
    intro kv h
    cases h
  | cons kv0 ps ih =>
    intro kv hmem
    have hmod : s % 2 ^ 32 = s := by
      have : 0 ≤ listSize (kv0 :: ps) := Nat.zero_le _
      exact Nat.mod_eq_of_lt (by omega)
    have hdrop0 : G.drop s = entryBytes kv0 ++ (ps.flatMap entryBytes ++ tail0) := by
      rw [hdrop, List.flatMap_cons, List.append_assoc]
    rcases List.mem_cons.mp hmem with rfl | hmem
    · refine ⟨s % 2 ^ 32, List.mem_cons_self _ _, by omega, ?_⟩
      rw [hmod]
      exact ⟨_, hdrop0⟩
    · have hdrop1 : G.drop (s + entrySize kv0) = ps.flatMap entryBytes ++ tail0 := by
        have h := dropBytes_add G s _ _ hdrop0
        rwa [entryBytes_length] at h
      have hlen : (G.drop s).length = G.length - s := List.length_drop _ _
      rw [hdrop0] at hlen
      simp only [List.length_append, entryBytes_length] at hlen
      have hsz : listSize (kv0 :: ps) = entrySize kv0 + listSize ps := by
        simp [listSize]
      obtain ⟨off, hoffmem, hbnd, tail, hal⟩ :=
        ih (s + entrySize kv0) tail0 hdrop1 (by omega) (by omega) kv hmem
      exact ⟨off, List.mem_cons_of_mem _ hoffmem, hbnd, tail, hal⟩

theorem hashGet_not_mem (l : List (Bytes × Nat)) (k : Bytes)
    (h : k ∉ l.map Prod.fst) : hashGet l k = none := by
  unfold hashGet
  rw [List.find?_eq_none.mpr]
  · rfl
  · intro kv hkv
    simp only [beq_iff_eq]
    intro hk
    exact h (List.mem_map.mpr ⟨kv, List.mem_reverse.mp hkv, hk⟩)

theorem hashGet_mem (l : List (Bytes × Nat)) (k : Bytes) (off : Nat)
    (hnd : (l.map Prod.fst).Nodup) (hmem : (k, off) ∈ l) :
    hashGet l k = some off := by
  induction l with
  | nil => cases hmem
  | cons kv l ih =>
    rw [List.map_cons, List.nodup_cons] at hnd
    rcases List.mem_cons.mp hmem with rfl | hmem
    · have hnone : l.reverse.find? (fun kv => kv.1 == k) = none := by
        rw [List.find?_eq_none]
        intro x hx
        simp only [beq_iff_eq]
        intro he
        exact hnd.1 (he ▸ List.mem_map.mpr ⟨x, List.mem_reverse.mp hx, rfl⟩)
      unfold hashGet
      rw [List.reverse_cons, List.find?_append, hnone]
      simp
    · have hsome := ih hnd.2 hmem
      unfold hashGet at hsome ⊢
      rw [List.reverse_cons, List.find?_append]
      rcases hf : l.reverse.find? (fun kv => kv.1 == k) with _ | x
      · rw [hf] at hsome
        simp at hsome
      · rw [hf] at hsome ⊢
        exact hsome

theorem readIndexLoop_spec (entries : List (Bytes × Nat)) (bs : Bytes)
    (pos : Nat) (rest : Bytes)
    (hdrop : bs.drop pos = idxBytes entries ++ rest) (hpos : pos ≤ bs.length)
    (hk : ∀ kv ∈ entries, kv.1.length < 2 ^ 32)
    (ho : ∀ kv ∈ entries, kv.2 < 2 ^ 32) :
    readIndexLoop bs pos entries.length = some entries := by
  induction entries generalizing pos rest with
  | nil => rfl
  | cons kv entries ih =>
    have hdrop0 : bs.drop pos
        = u32le kv.1.length ++ (kv.1 ++ (u32le kv.2 ++ (idxBytes entries ++ rest))) := by
      rw [hdrop]
      simp [idxBytes, List.flatMap_cons, List.append_assoc]
    have hlen0 : (bs.drop pos).length = bs.length - pos := List.length_drop _ _
    rw [hdrop0] at hlen0
    simp only [List.length_append, u32le_length] at hlen0
    have h1 := readU32_of_drop bs pos kv.1.length _ hdrop0
    rw [Nat.mod_eq_of_lt (hk kv (List.mem_cons_self _ _))] at h1
    have hdrop1 : bs.drop (pos + 4)
        = kv.1 ++ (u32le kv.2 ++ (idxBytes entries ++ rest)) := by
      have h := dropBytes_add bs pos _ _ hdrop0
      rwa [u32le_length] at h
    have h2 := readBytes_of_drop bs (pos + 4) kv.1.length kv.1 _ hdrop1 rfl (by omega)
    have hdrop2 : bs.drop (pos + 4 + kv.1.length)
        = u32le kv.2 ++ (idxBytes entries ++ rest) :=
      dropBytes_add bs (pos + 4) _ _ hdrop1
    have h3 := readU32_of_drop bs (pos + 4 + kv.1.length) kv.2 _ hdrop2
    rw [Nat.mod_eq_of_lt (ho kv (List.mem_cons_self _ _))] at h3
    have hdrop3 : bs.drop (pos + 4 + kv.1.length + 4) = idxBytes entries ++ rest := by
      have h := dropBytes_add bs (pos + 4 + kv.1.length) _ _ hdrop2
      rwa [u32le_length] at h
    have htail := ih (pos + 4 + kv.1.length + 4) rest hdrop3 (by omega)
      (fun x hx => hk x (List.mem_cons_of_mem _ hx))
      (fun x hx => ho x (List.mem_cons_of_mem _ hx))
    show readIndexLoop bs pos (entries.length + 1) = _
    rw [readIndexLoop, h1]
    simp only [Option.bind_eq_bind, Option.some_bind]
    rw [h2]
    simp only [Option.some_bind]
    rw [h3]
    simp only [Option.some_bind]
    rw [htail]
    simp only [Option.some_bind]

/-- C6: for an SSTable built by feeding pairs with distinct keys through
`add` and then `commit`, a reader opened on the file satisfies
`get k_i = Ok(Some v_i)` for every input pair and `get k' = Ok(None)` for
every other key. The size hypotheses keep the `as u32` casts of offsets
and counts lossless; sorted input order is a special case of distinct
keys (the reader's index is a hash map, so order is immaterial). -/
theorem C6_sstable_build_get (ps : List (Bytes × Bytes))
    (hnd : (ps.map Prod.fst).Nodup)
    (hsz : listSize ps < 2 ^ 32) (hcnt : ps.length < 2 ^ 32) :
    ∃ r, SSTableFileReader.openFile (buildLoop SSTableFileBuilder.new ps).commit
        = some r ∧
      (∀ kv ∈ ps, r.get (buildLoop SSTableFileBuilder.new ps).commit kv.1
          = some (some kv.2)) ∧
      (∀ k, k ∉ ps.map Prod.fst →
        r.get (buildLoop SSTableFileBuilder.new ps).commit k = some none) := by
  have hclosed := buildLoop_closed ps SSTableFileBuilder.new
  have hIXlen : (offsetsFrom 0 ps).length = ps.length := by
    have h := congrArg List.length (offsetsFrom_map_fst 0 ps)
    simpa using h
  have hDlen : (ps.flatMap entryBytes).length = listSize ps :=
    flatMap_entryBytes_length ps
  obtain ⟨F, hF⟩ : ∃ F, (buildLoop SSTableFileBuilder.new ps).commit = F := ⟨_, rfl⟩
  have hFs : F = ps.flatMap entryBytes ++ (idxBytes (offsetsFrom 0 ps)
      ++ (u32le ps.length ++ u32le (listSize ps))) := by
    rw [← hF, hclosed]
    simp [SSTableFileBuilder.commit, SSTableFileBuilder.new, hIXlen, List.append_assoc]
  have hFlen : F.length
      = listSize ps + (idxBytes (offsetsFrom 0 ps)).length + 8 := by
    rw [hFs]
    simp [List.length_append, u32le_length, hDlen]
    omega
  have hd1 : F.drop (listSize ps)
      = idxBytes (offsetsFrom 0 ps) ++ (u32le ps.length ++ u32le (listSize ps)) := by
    rw [hFs, ← hDlen]
    exact List.drop_left _ _
  have hd2 : F.drop (listSize ps + (idxBytes (offsetsFrom 0 ps)).length)
      = u32le ps.length ++ u32le (listSize ps) :=
    dropBytes_add F (listSize ps) _ _ hd1
  have hd3 : F.drop (listSize ps + (idxBytes (offsetsFrom 0 ps)).length + 4)
      = u32le (listSize ps) := by
    have h := dropBytes_add F (listSize ps + (idxBytes (offsetsFrom 0 ps)).length)
      (u32le ps.length) (u32le (listSize ps)) hd2
    rwa [u32le_length] at h
  have hr1 : readU32 F (F.length - 8) = some ps.length := by
    have hp : F.length - 8 = listSize ps + (idxBytes (offsetsFrom 0 ps)).length := by
      omega
    rw [hp]
    have h := readU32_of_drop F _ ps.length _ hd2
    rwa [Nat.mod_eq_of_lt hcnt] at h
  have hr2 : readU32 F (F.length - 4) = some (listSize ps) := by
    have hp : F.length - 4
        = listSize ps + (idxBytes (offsetsFrom 0 ps)).length + 4 := by
      omega
    rw [hp]
    have h := readU32_of_drop F _ (listSize ps) []
      (by rw [hd3, List.append_nil])
    rwa [Nat.mod_eq_of_lt hsz] at h
  have hloop : readIndexLoop F (listSize ps) ps.length
      = some (offsetsFrom 0 ps) := by
    rw [← hIXlen]
    refine readIndexLoop_spec _ _ _ (u32le ps.length ++ u32le (listSize ps)) hd1
      (by omega) ?_ (offsetsFrom_off_lt 0 ps)
    intro kv hkv
    have hmapped : kv.1 ∈ ps.map Prod.fst := by
      rw [← offsetsFrom_map_fst 0 ps]
      exact List.mem_map_of_mem _ hkv
    obtain ⟨pair, hpmem, hpeq⟩ := List.mem_map.mp hmapped
    have hle := entrySize_le_listSize ps pair hpmem
    simp only [entrySize] at hle
    rw [← hpeq]
    omega
  have hopen : SSTableFileReader.openFile F
      = some ⟨ps.length, offsetsFrom 0 ps⟩ := by
    unfold SSTableFileReader.openFile
    rw [if_neg (by omega), hr1]
    simp only [Option.bind_eq_bind, Option.some_bind]
    rw [hr2]
    simp only [Option.some_bind]
    rw [hloop]
    simp only [Option.some_bind]
  rw [hF]
  refine ⟨⟨ps.length, offsetsFrom 0 ps⟩, hopen, ?_, ?_⟩
  · intro kv hkv
    obtain ⟨off, hoffmem, hoffle, tail, htl⟩ :=
      offsetsFrom_spec ps 0 F (idxBytes (offsetsFrom 0 ps)
          ++ (u32le ps.length ++ u32le (listSize ps)))
        (by rw [List.drop_zero, hFs]) (Nat.zero_le _) (by omega) kv hkv
    have hE : F.drop off
        = u32le kv.1.length ++ (kv.1 ++ (u32le kv.2.length ++ (kv.2 ++ tail))) := by
      rw [htl]
      simp [entryBytes, List.append_assoc]
    have hsize := entrySize_le_listSize ps kv hkv
    simp only [entrySize] at hsize
    have hr1v := readU32_of_drop F off kv.1.length _ hE
    rw [Nat.mod_eq_of_lt (by omega)] at hr1v
    have hE1 : F.drop (off + 4) = kv.1 ++ (u32le kv.2.length ++ (kv.2 ++ tail)) := by
      have h := dropBytes_add F off _ _ hE
      rwa [u32le_length] at h
    have hE2 : F.drop (off + 4 + kv.1.length)
        = u32le kv.2.length ++ (kv.2 ++ tail) :=
      dropBytes_add F (off + 4) _ _ hE1
    have hr2v := readU32_of_drop F _ kv.2.length _ hE2
    rw [Nat.mod_eq_of_lt (by omega)] at hr2v
    have hE3 : F.drop (off + 4 + kv.1.length + 4) = kv.2 ++ tail := by
      have h := dropBytes_add F (off + 4 + kv.1.length) _ _ hE2
      rwa [u32le_length] at h
    have hlen0 : (F.drop off).length = F.length - off := List.length_drop _ _
    rw [hE] at hlen0
    simp only [List.length_append, u32le_length] at hlen0
    have hr3v := readBytes_of_drop F (off + 4 + kv.1.length + 4) kv.2.length
      kv.2 tail hE3 rfl (by omega)
    have hhg : hashGet (offsetsFrom 0 ps) kv.1 = some off := by
      refine hashGet_mem _ _ _ ?_ hoffmem
      rw [offsetsFrom_map_fst]
      exact hnd
    unfold SSTableFileReader.get
    simp only []
    rw [hhg]
    simp only []
    rw [hr1v]
    simp only [Option.bind_eq_bind, Option.some_bind]
    rw [hr2v]
    simp only [Option.some_bind]
    rw [hr3v]
    simp only [Option.some_bind]
  · intro k hk
    have hhg : hashGet (offsetsFrom 0 ps) k = none := by
      refine hashGet_not_mem _ _ ?_
      rw [offsetsFrom_map_fst]
      exact hk
    unfold SSTableFileReader.get
    simp only []
    rw [hhg]

/-- Witness for C6 at a concrete two-pair table. -/
theorem C6_sstable_build_get_witness :
    (([([97], [120]), ([98], [121])] : List (Bytes × Bytes)).map Prod.fst).Nodup ∧
    listSize [([97], [120]), ([98], [121])] < 2 ^ 32 ∧
    ([([97], [120]), ([98], [121])] : List (Bytes × Bytes)).length < 2 ^ 32 ∧
    (∃ r, SSTableFileReader.openFile
        (buildLoop SSTableFileBuilder.new [([97], [120]), ([98], [121])]).commit
          = some r ∧
      (∀ kv ∈ ([([97], [120]), ([98], [121])] : List (Bytes × Bytes)),
        r.get (buildLoop SSTableFileBuilder.new
          [([97], [120]), ([98], [121])]).commit kv.1 = some (some kv.2)) ∧
      (∀ k, k ∉ ([([97], [120]), ([98], [121])] : List (Bytes × Bytes)).map Prod.fst →
        r.get (buildLoop SSTableFileBuilder.new
          [([97], [120]), ([98], [121])]).commit k = some none)) :=
  ⟨by decide, by decide, by decide,
    C6_sstable_build_get [([97], [120]), ([98], [121])]
      (by decide) (by decide) (by decide)⟩

/-! ### `src/storage/lsmtree.rs`: manifest and memtable -/

/-- `SSTableMeta`: filename, level, and the key range. -/
structure SSTableMeta where
  filename : Bytes
  level : Nat
  min_key : Bytes
  max_key : Bytes
deriving Repr, DecidableEq

/-- Model of `LSMTree::flush_metadata`: `write_u8` of the sstable count
(`len() as u8` wraps mod 256), then per entry
`fnamelen(u32) | fname | level(u8) | minkeylen(u32) | minkey |
maxkeylen(u32) | maxkey`. -/
def flushMetadata (sstables : List SSTableMeta) : Bytes :=
  [sstables.length % 256] ++ sstables.flatMap fun m =>
    u32le m.filename.length ++ m.filename ++ [m.level % 256]
      ++ u32le m.min_key.length ++ m.min_key
      ++ u32le m.max_key.length ++ m.max_key

/-- The `for _ in 0..num_sstables` loop of `LSMTree::tryload_meta`:
`fnamelen(u8) | fname | level(u8) | minkeylen(u32) | minkey |
maxkeylen(u32) | maxkey` per entry. -/
def tryloadLoop (bs : Bytes) : Nat → Nat → Option (List SSTableMeta)
  | _, 0 => some []
  | pos, n + 1 => do
    let fl ← readU8 bs pos
    let fname ← readBytes bs (pos + 1) fl
    let lvl ← readU8 bs (pos + 1 + fl)
    let mnl ← readU32 bs (pos + 1 + fl + 1)
    let mn ← readBytes bs (pos + 1 + fl + 1 + 4) mnl
    let mxl ← readU32 bs (pos + 1 + fl + 1 + 4 + mnl)
    let mx ← readBytes bs (pos + 1 + fl + 1 + 4 + mnl + 4) mxl
    let rest ← tryloadLoop bs (pos + 1 + fl + 1 + 4 + mnl + 4 + mxl) n
    some (⟨fname, lvl, mn, mx⟩ :: rest)

/-- Model of `LSMTree::tryload_meta` on an existing manifest file:
`read_u32` of the count, then the entry loop. -/
def tryloadMeta (bs : Bytes) : Option (List SSTableMeta) := do
  let cnt ← readU32 bs 0
  tryloadLoop bs 4 cnt

/-- The `MemTable` struct: the `BTreeMap` as its entry sequence plus the
projected-flush-size counter. -/
structure MemTable where
  map : List (Bytes × Bytes)
  flush_size : Nat
deriving Repr, DecidableEq

def MemTable.new : MemTable := ⟨[], 0⟩

/-- `BTreeMap::insert`: replace the value of an existing key, otherwise
add the binding. -/
def mapInsert : List (Bytes × Bytes) → Bytes → Bytes → List (Bytes × Bytes)
  | [], k, v => [(k, v)]
  | (k0, v0) :: rest, k, v =>
    if k0 = k then (k, v) :: rest else (k0, v0) :: mapInsert rest k v

/-- Model of `MemTable::insert`: insert into the map and add
`2 * size_of::<u32>() + key.len() + val.len()` to the counter
unconditionally. -/
def MemTable.insert (m : MemTable) (key val : Bytes) : MemTable :=
  ⟨mapInsert m.map key val, m.flush_size + (8 + key.length + val.length)⟩

/-- The projected on-disk size of a map: the sum of
`8 + len(key) + len(value)` over its entries. -/
def flushSizeOf (l : List (Bytes × Bytes)) : Nat :=
  (l.map fun kv => 8 + kv.1.length + kv.2.length).sum

/-- A finite sequence of `insert` operations. -/
def insertList (m : MemTable) : List (Bytes × Bytes) → MemTable
  | [] => m
  | (k, v) :: ops => insertList (m.insert k v) ops

/-! ### `src/storage/store.rs`: `RustyStore::new` -/

/-- Byte-wise lexicographic strict order on keys (`String` ordering). -/
def bytesLt : Bytes → Bytes → Bool
  | [], [] => false
  | [], _ :: _ => true
  | _ :: _, [] => false
  | a :: as, b :: bs => if a < b then true else if b < a then false else bytesLt as bs

/-- `MemTable::get_minkey` before its `unwrap`: `map.keys().next()`, the
least key of the `BTreeMap`, or `None` when the map is empty. -/
def MemTable.getMinkey (m : MemTable) : Option Bytes :=
  (m.map.map Prod.fst).foldl
    (fun acc k =>
      match acc with
      | none => some k
      | some k0 => if bytesLt k k0 then some k else some k0) none

/-- The root directory a store is opened on: whether it exists and the
WAL records found in it (no manifest file present — a fresh root). -/
structure RootDir where
  dirExists : Bool
  walRecords : List (Bytes × Bytes)
deriving Repr, DecidableEq

/-- The observable outcome of `RustyStore::new`. -/
inductive StoreResult where
  | ok
  | ioError
  | panicked
deriving Repr, DecidableEq

/-- Model of `RustyStore::new` on a manifest-free root. `LSMTree::new`
succeeds (no manifest to load); `WALReader::new` opens the WAL file with
`create(true)`, which fails with an io error when the root directory is
missing (it is never created); every WAL record is replayed into the
memtable; then the unconditional `flush_memtable` starts with
`get_minkey`, whose `unwrap` panics when the memtable is empty. -/
def rustyStoreNew (root : RootDir) : StoreResult :=
  if !root.dirExists then .ioError
  else
    let m := insertList MemTable.new root.walRecords
    match m.getMinkey with
    | none => .panicked
    | some _ => .ok

/-- C7: the manifest does not round-trip. The write path emits the
sstable count as one byte (`write_u8`) and each filename length as four
bytes (`write_u32`), while the read path parses the count as four bytes
(`read_u32`) and each filename length as one byte (`read_u8`). On a
one-entry manifest for `a.sst` the reader takes the count bytes
`[1, 5, 0, 0]` as the count 1281 and runs off the end of the file, so
loading returns an error instead of the written list. -/
theorem C7_manifest_roundtrip_violated :
    readU32 (flushMetadata [⟨[97, 46, 115, 115, 116], 0, [97], [98]⟩]) 0
        = some 1281 ∧
    tryloadMeta (flushMetadata [⟨[97, 46, 115, 115, 116], 0, [97], [98]⟩])
        = none ∧
    tryloadMeta (flushMetadata [⟨[97, 46, 115, 115, 116], 0, [97], [98]⟩])
        ≠ some [⟨[97, 46, 115, 115, 116], 0, [97], [98]⟩] := by
  decide

/-- C8 (counterexample to the spec as stated): two inserts of the same
key leave the map with one entry of projected size 10 but the counter at
20 — `insert` adds the pair size unconditionally, also on overwrite. -/
theorem C8_memtable_flush_size_counterexample :
    (insertList MemTable.new [([97], [120]), ([97], [121])]).flush_size = 20 ∧
    flushSizeOf (insertList MemTable.new [([97], [120]), ([97], [121])]).map = 10 ∧
    (insertList MemTable.new [([97], [120]), ([97], [121])]).flush_size
      ≠ flushSizeOf (insertList MemTable.new [([97], [120]), ([97], [121])]).map := by
  decide

theorem mapInsert_not_mem (l : List (Bytes × Bytes)) (k v : Bytes)
    (h : k ∉ l.map Prod.fst) : mapInsert l k v = l ++ [(k, v)] := by
  induction l with
  | nil => rfl
  | cons kv0 l ih =>
    obtain ⟨k0, v0⟩ := kv0
    simp only [List.map_cons, List.mem_cons] at h
    push_neg at h
    show (if k0 = k then _ else _) = _
    rw [if_neg (fun he => h.1 he.symm)]
    rw [ih h.2]
    rfl

theorem insertList_flush_size (ops : List (Bytes × Bytes)) (m : MemTable)
    (hinv : m.flush_size = flushSizeOf m.map)
    (hdisj : ∀ k ∈ ops.map Prod.fst, k ∉ m.map.map Prod.fst)
    (hnd : (ops.map Prod.fst).Nodup) :
    (insertList m ops).flush_size = flushSizeOf (insertList m ops).map := by
  induction ops generalizing m with
  | nil => exact hinv
  | cons kv ops ih =>
    obtain ⟨k, v⟩ := kv
    simp only [List.map_cons, List.nodup_cons] at hnd
    have hdk : k ∉ m.map.map Prod.fst := hdisj k (by simp)
    have hmain : mapInsert m.map k v = m.map ++ [(k, v)] :=
      mapInsert_not_mem _ _ _ hdk
    show (insertList (m.insert k v) ops).flush_size = _
    refine ih (m.insert k v) ?_ ?_ hnd.2
    · show m.flush_size + (8 + k.length + v.length) = flushSizeOf (mapInsert m.map k v)
      rw [hmain, hinv]
      simp [flushSizeOf]
    · intro k' hk'
      show k' ∉ (mapInsert m.map k v).map Prod.fst
      rw [hmain]
      simp only [List.map_append, List.map_cons, List.map_nil, List.mem_append,
        List.mem_singleton]
      push_neg
      refine ⟨hdisj k' (by simp [hk']), ?_⟩
      intro he
      exact hnd.1 (he ▸ hk')

/-- C8 (amended): for any run of inserts with pairwise-distinct keys
starting from a fresh memtable, the projected-flush-size counter equals
the sum over the map's entries of `8 + len(key) + len(value)`. -/
theorem C8_memtable_flush_size_amended (ops : List (Bytes × Bytes))
    (hnd : (ops.map Prod.fst).Nodup) :
    (insertList MemTable.new ops).flush_size
      = flushSizeOf (insertList MemTable.new ops).map :=
  insertList_flush_size ops MemTable.new rfl (by intro k _ h; cases h) hnd

/-- Witness for C8 (amended) at a concrete two-key run. -/
theorem C8_memtable_flush_size_amended_witness :
    (([([97], [120]), ([98], [121])] : List (Bytes × Bytes)).map Prod.fst).Nodup ∧
    (insertList MemTable.new [([97], [120]), ([98], [121])]).flush_size
      = flushSizeOf (insertList MemTable.new [([97], [120]), ([98], [121])]).map :=
  ⟨by decide,
    C8_memtable_flush_size_amended [([97], [120]), ([98], [121])] (by decide)⟩

/-- C9: opening a store never behaves as specified on a fresh root. On a
missing root directory, `WALReader::new` fails to create the WAL file
(the directory is never created), so `open` returns an io error; on an
existing root with no WAL records, the unconditional `flush_memtable`
panics in `get_minkey` (`unwrap` of `None`) on the empty memtable. A
root whose WAL holds a record does open successfully. -/
theorem C9_store_open_unsafe :
    rustyStoreNew ⟨false, []⟩ = .ioError ∧
    rustyStoreNew ⟨true, []⟩ = .panicked ∧
    rustyStoreNew ⟨true, [([97], [120])]⟩ = .ok := by
  decide

end RustyDB
